import Mathlib

/-!
Shallow embedding of the `palindrome-products` crate (`src/lib.rs`) and
verification of its specification.

The Rust code is translated as follows:
* `u64` arithmetic is `Nat` arithmetic reduced modulo `2 ^ 64` (the wrapping
  semantics of release-profile Rust);
* the `HashMap<u64, u64>` frontier is an association list `List (Nat × Nat)`;
  every observable operation of the source (`min_by_key` / `max_by_key` on the
  values, `find_keys` + pointwise update, `retain`) is independent of the hash
  iteration order, so the list embedding is faithful;
* the unbounded iterator drains are fuelled: `nexts r fuel` performs at most
  `fuel` calls of `next`, and `FUEL max = max * max + 2` is shown to exhaust
  both drains on the ranges where the source terminates.
-/

namespace PalinProd

/-- Size of the `u64` domain, `2 ^ 64`. -/
def U64 : Nat := 18446744073709551616

/-- Wrapping `u64` addition (`*v += k` in the source). -/
def u64add (a b : Nat) : Nat := (a + b) % U64

/-- Wrapping `u64` multiplication (`i * i`, `k * self.max`, `k * self.min`). -/
def u64mul (a b : Nat) : Nat := a * b % U64

/-- Wrapping `u64` subtraction (`*v -= k` in the source). -/
def u64sub (a b : Nat) : Nat := (a + (U64 - b % U64)) % U64

/-- The `Palindrome` newtype of the source: a wrapper around a `u64` value. -/
structure Palindrome where
  val : Nat
deriving DecidableEq

/-- Decimal digits of `n`, least significant first; the fuel argument makes the
division recursion structural (any fuel `≥ n` yields the digits of `n`). -/
def digitsAux : Nat → Nat → List Nat
  | 0, _ => []
  | _ + 1, 0 => []
  | fuel + 1, n + 1 => (n + 1) % 10 :: digitsAux fuel ((n + 1) / 10)

/-- The decimal digit sequence of `value`, most significant digit first,
modelling the character sequence of `value.to_string()`. -/
def decimalDigits (value : Nat) : List Nat := (digitsAux value value).reverse

/-- `Palindrome::new` from the source: accept `value < 10` outright, otherwise
compare the decimal representation with its reverse. -/
def Palindrome.new (value : Nat) : Option Palindrome :=
  if value < 10 then some ⟨value⟩
  else
    let p1 := decimalDigits value
    let p2 := p1.reverse
    if p1 = p2 then some ⟨value⟩ else none

/-- `Palindrome::into_inner` from the source. -/
def Palindrome.into_inner (p : Palindrome) : Nat := p.val

/-- The `ProductRange` iterator state from the source. -/
structure ProductRange where
  min : Nat
  max : Nat
  last_min : Option Nat
  last_max : Option Nat
  data : List (Nat × Nat)
deriving DecidableEq

/-- `ProductRange::new`: one frontier row per factor `k ∈ min..=max`,
initialised to the diagonal value `k * k` (computed in `u64`). -/
def ProductRange.new (min max : Nat) : ProductRange :=
  { min := min, max := max, last_min := none, last_max := none,
    data := (List.range' min (max + 1 - min)).map fun i => (i, u64mul i i) }

/-- Minimum of a list of naturals (`iter().min_by_key(|(_k, &v)| v)` applied to
the stored values; only the extreme value is used by the source). -/
def listMin : List Nat → Option Nat
  | [] => none
  | x :: xs =>
    match listMin xs with
    | none => some x
    | some m => some (if x ≤ m then x else m)

/-- Maximum of a list of naturals (`iter().max_by_key(|(_k, &v)| v)`). -/
def listMax : List Nat → Option Nat
  | [] => none
  | x :: xs =>
    match listMax xs with
    | none => some x
    | some m => some (if x ≤ m then m else x)

/-- `Iterator::next` for `ProductRange`: emit the least frontier value,
advance every row holding it (`*v += k`), retain rows with `v ≤ k * max`,
apply the `last_max` watermark filter, record `last_min`. -/
def ProductRange.next (r : ProductRange) : Option Nat × ProductRange :=
  match listMin (r.data.map Prod.snd) with
  | none => (none, r)
  | some min_val =>
    let updated := r.data.map fun kv =>
      if kv.2 = min_val then (kv.1, u64add kv.2 kv.1) else kv
    let kept := updated.filter fun kv => decide (kv.2 ≤ u64mul kv.1 r.max)
    let kept2 :=
      match r.last_max with
      | none => kept
      | some lm => kept.filter fun kv => decide (kv.2 < lm)
    (some min_val, { r with data := kept2, last_min := some min_val })

/-- `DoubleEndedIterator::next_back` for `ProductRange`: emit the greatest
frontier value, walk every row holding it down (`*v -= k`), retain rows with
`v ≥ k * min`, apply the `last_min` watermark filter, record `last_max`. -/
def ProductRange.next_back (r : ProductRange) : Option Nat × ProductRange :=
  match listMax (r.data.map Prod.snd) with
  | none => (none, r)
  | some max_val =>
    let updated := r.data.map fun kv =>
      if kv.2 = max_val then (kv.1, u64sub kv.2 kv.1) else kv
    let kept := updated.filter fun kv => decide (u64mul kv.1 r.min ≤ kv.2)
    let kept2 :=
      match r.last_min with
      | none => kept
      | some lm => kept.filter fun kv => decide (lm < kv.2)
    (some max_val, { r with data := kept2, last_max := some max_val })

/-- Repeated `next` calls (ascending drain): the list of emitted values over at
most `fuel` calls, together with the final state. Stops early on `None`. -/
def nexts : ProductRange → Nat → List Nat × ProductRange
  | r, 0 => ([], r)
  | r, fuel + 1 =>
    match r.next with
    | (none, r1) => ([], r1)
    | (some v, r1) =>
      let p := nexts r1 fuel
      (v :: p.1, p.2)

/-- Repeated `next_back` calls (descending drain). -/
def nextsBack : ProductRange → Nat → List Nat × ProductRange
  | r, 0 => ([], r)
  | r, fuel + 1 =>
    match r.next_back with
    | (none, r1) => ([], r1)
    | (some v, r1) =>
      let p := nextsBack r1 fuel
      (v :: p.1, p.2)

/-- An arbitrary interleaving of `next` (`true`) and `next_back` (`false`)
calls on one shared instance; emissions are tagged with their direction.
A `None` reply does not stop the remaining calls. -/
def runMix : ProductRange → List Bool → List (Bool × Nat) × ProductRange
  | r, [] => ([], r)
  | r, d :: ds =>
    match (if d then r.next else r.next_back) with
    | (none, r1) => runMix r1 ds
    | (some v, r1) =>
      let p := runMix r1 ds
      ((d, v) :: p.1, p.2)

/-- `find_map(|i| Palindrome::new(i))` over the ascending drain, fuelled. -/
def findMapPal : ProductRange → Nat → Option Palindrome
  | _, 0 => none
  | r, fuel + 1 =>
    match r.next with
    | (none, _) => none
    | (some v, r1) =>
      match Palindrome.new v with
      | some p => some p
      | none => findMapPal r1 fuel

/-- `rev().find_map(|i| Palindrome::new(i))`: the same search driven by
`next_back`. -/
def findMapPalBack : ProductRange → Nat → Option Palindrome
  | _, 0 => none
  | r, fuel + 1 =>
    match r.next_back with
    | (none, _) => none
    | (some v, r1) =>
      match Palindrome.new v with
      | some p => some p
      | none => findMapPalBack r1 fuel

/-- Fuel bound used to model the unbounded Rust drains; proved below to
exhaust both directions whenever `1 ≤ min` and `max < 2 ^ 32`. -/
def FUEL (max : Nat) : Nat := max * max + 2

/-- `palindrome_products` from the source: the first palindrome of the
ascending drain paired with the first palindrome of the descending drain of a
second, independent `ProductRange`; `Some` only if both searches succeed. -/
def palindrome_products (mn mx : Nat) : Option (Palindrome × Palindrome) :=
  let min_pal := findMapPal (ProductRange.new mn mx) (FUEL mx)
  let max_pal := findMapPalBack (ProductRange.new mn mx) (FUEL mx)
  match min_pal, max_pal with
  | some mnp, some mxp => some (mnp, mxp)
  | _, _ => none

/-- `x` is an achievable product of two factors drawn from `[mn, mx]`. -/
def isProd (mn mx x : Nat) : Prop :=
  ∃ a b, mn ≤ a ∧ a ≤ mx ∧ mn ≤ b ∧ b ≤ mx ∧ x = a * b

/-- Bounded boolean conjunction: `p` holds of every `i < n` (used for the
small finite checks below). -/
def allBelow (n : Nat) (p : Nat → Bool) : Bool := (List.range n).all p

/-- Ordering discipline of interleaved emissions: every later emission lies
strictly above an earlier ascending emission and strictly below an earlier
descending one. -/
def sepOrder (a b : Bool × Nat) : Prop := if a.1 then a.2 < b.2 else b.2 < a.2

/-- Invariant of a `ProductRange` drained only through `next`, relative to the
list `out` of values emitted so far. -/
structure AscInv (mn mx : Nat) (r : ProductRange) (out : List Nat) : Prop where
  hmin : r.min = mn
  hmax : r.max = mx
  hlmax : r.last_max = none
  entries : ∀ kv ∈ r.data, mn ≤ kv.1 ∧ kv.1 ≤ mx ∧
    ∃ m, kv.1 ≤ m ∧ m ≤ mx ∧ kv.2 = kv.1 * m ∧
      ∀ j, kv.1 ≤ j → j < m → kv.1 * j ∈ out
  above : ∀ kv ∈ r.data, ∀ x ∈ out, x < kv.2
  missing : ∀ k, mn ≤ k → k ≤ mx → (∀ v, (k, v) ∉ r.data) →
    ∀ m, k ≤ m → m ≤ mx → k * m ∈ out
  sorted : List.Pairwise (· < ·) out
  sound : ∀ x ∈ out, ∃ a b, mn ≤ a ∧ a ≤ b ∧ b ≤ mx ∧ x = a * b

/-- Invariant of a `ProductRange` drained only through `next_back`. -/
structure DescInv (mn mx : Nat) (r : ProductRange) (out : List Nat) : Prop where
  hmin : r.min = mn
  hmax : r.max = mx
  hlmin : r.last_min = none
  entries : ∀ kv ∈ r.data, mn ≤ kv.1 ∧ kv.1 ≤ mx ∧
    ∃ m, mn ≤ m ∧ m ≤ kv.1 ∧ kv.2 = kv.1 * m ∧
      ∀ j, m < j → j ≤ kv.1 → kv.1 * j ∈ out
  below : ∀ kv ∈ r.data, ∀ x ∈ out, kv.2 < x
  missing : ∀ k, mn ≤ k → k ≤ mx → (∀ v, (k, v) ∉ r.data) →
    ∀ m, mn ≤ m → m ≤ k → k * m ∈ out
  sorted : List.Pairwise (· > ·) out
  sound : ∀ x ∈ out, ∃ a b, mn ≤ a ∧ a ≤ b ∧ b ≤ mx ∧ x = a * b

/-- Invariant preserved by arbitrary interleavings of `next` and `next_back`
on one shared `ProductRange` (for ranges with `1 ≤ min`, `max < 2 ^ 32`). -/
structure MixInv (mn mx : Nat) (r : ProductRange) : Prop where
  hmin : r.min = mn
  hmax : r.max = mx
  entries : ∀ kv ∈ r.data, mn ≤ kv.1 ∧ kv.1 ≤ mx ∧
    ∃ m, mn ≤ m ∧ m ≤ mx ∧ kv.2 = kv.1 * m
  hlmin : ∀ l, r.last_min = some l → ∀ kv ∈ r.data, l < kv.2
  hlmax : ∀ L, r.last_max = some L → ∀ kv ∈ r.data, kv.2 < L

/-! ### Basic facts about the wrapping arithmetic -/

theorem U64_pos : 0 < U64 := by decide

theorem u64add_eq {a b : Nat} (h : a + b < U64) : u64add a b = a + b :=
  Nat.mod_eq_of_lt h

theorem u64mul_eq {a b : Nat} (h : a * b < U64) : u64mul a b = a * b :=
  Nat.mod_eq_of_lt h

theorem u64sub_eq {a b : Nat} (hb : b ≤ a) (ha : a < U64) : u64sub a b = a - b := by
  unfold u64sub
  have hbU : b < U64 := lt_of_le_of_lt hb ha
  rw [Nat.mod_eq_of_lt hbU]
  have hsplit : a + (U64 - b) = U64 + (a - b) := by omega
  rw [hsplit, Nat.add_mod_left]
  exact Nat.mod_eq_of_lt (by omega)

/-- With `max < 2 ^ 32`, a product of a factor `≤ max` and a factor
`≤ max + 1` stays below `2 ^ 64`. -/
theorem mul_lt_U64 {a b max : Nat} (hmax : max < 4294967296)
    (ha : a ≤ max) (hb : b ≤ max + 1) : a * b < U64 := by
  have h1 : a * b ≤ max * (max + 1) := Nat.mul_le_mul ha hb
  have h2 : max * (max + 1) ≤ 4294967295 * 4294967296 :=
    Nat.mul_le_mul (by omega) (by omega)
  have h3 : (4294967295 : Nat) * 4294967296 = 18446744069414584320 := by norm_num
  have h4 : U64 = 18446744073709551616 := rfl
  omega

/-! ### Facts about `listMin` and `listMax` -/

theorem listMin_eq_none {l : List Nat} : listMin l = none ↔ l = [] := by
  cases l with
  | nil => simp [listMin]
  | cons x xs => cases hx : listMin xs <;> simp [listMin, hx]

theorem listMin_isSome {l : List Nat} (h : l ≠ []) : ∃ m, listMin l = some m := by
  cases hl : listMin l with
  | none => exact absurd (listMin_eq_none.mp hl) h
  | some m => exact ⟨m, rfl⟩

theorem listMin_mem {l : List Nat} {m : Nat} (h : listMin l = some m) : m ∈ l := by
  induction l generalizing m with
  | nil => simp [listMin] at h
  | cons x xs ih =>
    cases hx : listMin xs with
    | none =>
      simp only [listMin, hx] at h
      injection h with h
      simp [h.symm]
    | some m' =>
      simp only [listMin, hx] at h
      injection h with h
      by_cases hc : x ≤ m'
      · rw [if_pos hc] at h
        simp [h.symm]
      · rw [if_neg hc] at h
        exact List.mem_cons_of_mem _ (ih (h ▸ hx))

theorem listMin_le {l : List Nat} {m : Nat} (h : listMin l = some m) :
    ∀ x ∈ l, m ≤ x := by
  induction l generalizing m with
  | nil => simp [listMin] at h
  | cons x xs ih =>
    intro y hy
    cases hx : listMin xs with
    | none =>
      have hxs : xs = [] := listMin_eq_none.mp hx
      subst hxs
      simp only [listMin] at h
      injection h with h
      simp at hy
      omega
    | some m' =>
      simp only [listMin, hx] at h
      injection h with h
      rcases List.mem_cons.mp hy with hyx | hyxs
      · by_cases hc : x ≤ m' <;> [rw [if_pos hc] at h; rw [if_neg hc] at h] <;> omega
      · have hle := ih hx y hyxs
        by_cases hc : x ≤ m' <;> [rw [if_pos hc] at h; rw [if_neg hc] at h] <;> omega

theorem listMax_eq_none {l : List Nat} : listMax l = none ↔ l = [] := by
  cases l with
  | nil => simp [listMax]
  | cons x xs => cases hx : listMax xs <;> simp [listMax, hx]

theorem listMax_isSome {l : List Nat} (h : l ≠ []) : ∃ m, listMax l = some m := by
  cases hl : listMax l with
  | none => exact absurd (listMax_eq_none.mp hl) h
  | some m => exact ⟨m, rfl⟩

theorem listMax_mem {l : List Nat} {m : Nat} (h : listMax l = some m) : m ∈ l := by
  induction l generalizing m with
  | nil => simp [listMax] at h
  | cons x xs ih =>
    cases hx : listMax xs with
    | none =>
      simp only [listMax, hx] at h
      injection h with h
      simp [h.symm]
    | some m' =>
      simp only [listMax, hx] at h
      injection h with h
      by_cases hc : x ≤ m'
      · rw [if_pos hc] at h
        exact List.mem_cons_of_mem _ (ih (h ▸ hx))
      · rw [if_neg hc] at h
        simp [h.symm]

theorem listMax_ge {l : List Nat} {m : Nat} (h : listMax l = some m) :
    ∀ x ∈ l, x ≤ m := by
  induction l generalizing m with
  | nil => simp [listMax] at h
  | cons x xs ih =>
    intro y hy
    cases hx : listMax xs with
    | none =>
      have hxs : xs = [] := listMax_eq_none.mp hx
      subst hxs
      simp only [listMax] at h
      injection h with h
      simp at hy
      omega
    | some m' =>
      simp only [listMax, hx] at h
      injection h with h
      rcases List.mem_cons.mp hy with hyx | hyxs
      · by_cases hc : x ≤ m' <;> [rw [if_pos hc] at h; rw [if_neg hc] at h] <;> omega
      · have hle := ih hx y hyxs
        by_cases hc : x ≤ m' <;> [rw [if_pos hc] at h; rw [if_neg hc] at h] <;> omega

/-! ### Facts about `Palindrome::new` -/

theorem Palindrome.new_val {v : Nat} {p : Palindrome}
    (h : Palindrome.new v = some p) : p.val = v := by
  by_cases h10 : v < 10
  · simp only [Palindrome.new, if_pos h10] at h
    injection h with h
    rw [← h]
  · simp only [Palindrome.new, if_neg h10] at h
    split at h
    · injection h with h
      rw [← h]
    · cases h

theorem Palindrome.new_of_isSome {v : Nat}
    (h : (Palindrome.new v).isSome = true) : Palindrome.new v = some ⟨v⟩ := by
  cases hn : Palindrome.new v with
  | none => rw [hn] at h; cases h
  | some p =>
    have := Palindrome.new_val hn
    cases p
    simp_all

theorem Palindrome.new_of_not_isSome {v : Nat}
    (h : ¬(Palindrome.new v).isSome = true) : Palindrome.new v = none := by
  cases hn : Palindrome.new v with
  | none => rfl
  | some p => rw [hn] at h; simp at h

/-! ### The ascending drain: invariant, preservation, completeness -/

/-- `next` on an exhausted frontier replies `None` and leaves the state
untouched. -/
theorem next_none {r : ProductRange} (h : r.data = []) : r.next = (none, r) := by
  simp [ProductRange.next, h, listMin]

/-- `next_back` on an exhausted frontier replies `None` and leaves the state
untouched. -/
theorem next_back_none {r : ProductRange} (h : r.data = []) :
    r.next_back = (none, r) := by
  simp [ProductRange.next_back, h, listMax]

/-- The freshly constructed `ProductRange` satisfies the ascending invariant
with empty output. -/
theorem ascInv_new {mn mx : Nat} (hmn : 1 ≤ mn) (hmx : mx < 4294967296) :
    AscInv mn mx (ProductRange.new mn mx) [] := by
  refine ⟨rfl, rfl, rfl, ?_, ?_, ?_, ?_, ?_⟩
  · intro kv hkv
    simp only [ProductRange.new, List.mem_map] at hkv
    obtain ⟨i, hi, hkvi⟩ := hkv
    rw [List.mem_range'_1] at hi
    have hile : i ≤ mx := by omega
    have hmul : u64mul i i = i * i :=
      u64mul_eq (mul_lt_U64 hmx hile (by omega))
    subst hkvi
    refine ⟨by omega, hile, i, le_refl i, hile, by simpa using hmul, ?_⟩
    intro j hj1 hj2
    omega
  · intro kv hkv x hx
    cases hx
  · intro k hk1 hk2 habs m _ _
    exfalso
    apply habs (u64mul k k)
    simp only [ProductRange.new, List.mem_map]
    refine ⟨k, ?_, rfl⟩
    rw [List.mem_range'_1]
    omega
  · exact List.Pairwise.nil
  · intro x hx
    cases hx

/-- One ascending step from a nonempty frontier: the emitted value is the
frontier minimum and the invariant is preserved with it appended to the
output. -/
theorem asc_step {mn mx : Nat} (hmn : 1 ≤ mn) (hmx : mx < 4294967296)
    {r : ProductRange} {out : List Nat} (inv : AscInv mn mx r out)
    (hne : r.data ≠ []) :
    ∃ v r', r.next = (some v, r') ∧ AscInv mn mx r' (out ++ [v]) := by
  have hvals : r.data.map Prod.snd ≠ [] := by simpa using hne
  obtain ⟨mv, hmv⟩ := listMin_isSome hvals
  obtain ⟨kvw, hkvw, hkvw2⟩ := List.mem_map.mp (listMin_mem hmv)
  have hlb : ∀ kv ∈ r.data, mv ≤ kv.2 := fun kv hkv =>
    listMin_le hmv _ (List.mem_map_of_mem _ hkv)
  obtain ⟨hw1, hw2, mw, hmw1, hmw2, hmweq, _⟩ := inv.entries kvw hkvw
  have hmvout : ∀ x ∈ out, x < mv := by
    intro x hx
    have h1 := inv.above kvw hkvw x hx
    omega
  have hmvprod : ∃ a b, mn ≤ a ∧ a ≤ b ∧ b ≤ mx ∧ mv = a * b :=
    ⟨kvw.1, mw, hw1, hmw1, hmw2, by rw [← hkvw2, hmweq]⟩
  have hnext : r.next = (some mv, { r with
      data := (r.data.map fun kv =>
          if kv.2 = mv then (kv.1, u64add kv.2 kv.1) else kv).filter
        fun kv => decide (kv.2 ≤ u64mul kv.1 r.max),
      last_min := some mv }) := by
    simp only [ProductRange.next, hmv, inv.hlmax]
  refine ⟨mv, _, hnext, ?_⟩
  -- arithmetic facts shared by the components below
  have hadd2 : ∀ k v m : Nat, k ≤ mx → m ≤ mx → v = k * m →
      u64add v k = v + k ∧ v + k = k * (m + 1) := by
    intro k v m hk hm hv
    have hlt : k * (m + 1) < U64 := mul_lt_U64 hmx hk (by omega)
    have heq : v + k = k * (m + 1) := by rw [hv]; ring
    exact ⟨u64add_eq (by rw [heq]; exact hlt), heq⟩
  have hkmax : ∀ kv ∈ r.data, u64mul kv.1 r.max = kv.1 * mx := by
    intro kv hkv
    obtain ⟨h1, h2, _⟩ := inv.entries kv hkv
    rw [inv.hmax]
    exact u64mul_eq (mul_lt_U64 hmx h2 (by omega))
  refine ⟨inv.hmin, inv.hmax, inv.hlmax, ?_, ?_, ?_, ?_, ?_⟩
  -- entries
  · intro kv' hkv'
    obtain ⟨hmap, hfil⟩ := List.mem_filter.mp hkv'
    obtain ⟨kv, hkv, hupd⟩ := List.mem_map.mp hmap
    rw [decide_eq_true_eq] at hfil
    obtain ⟨hk1, hk2, m, hm1, hm2, hveq, hist⟩ := inv.entries kv hkv
    by_cases hcase : kv.2 = mv
    · rw [if_pos hcase] at hupd
      obtain ⟨ha1, ha2⟩ := hadd2 kv.1 kv.2 m hk2 hm2 hveq
      rw [← hupd] at hfil ⊢
      simp only at hfil ⊢
      rw [ha1, ha2] at hfil ⊢
      rw [hkmax kv hkv] at hfil
      have hmle : m + 1 ≤ mx :=
        Nat.le_of_mul_le_mul_left hfil (by omega)
      refine ⟨hk1, hk2, m + 1, by omega, hmle, rfl, ?_⟩
      intro j hj1 hj2
      by_cases hjm : j < m
      · exact List.mem_append_left _ (hist j hj1 hjm)
      · have hjeq : j = m := by omega
        subst hjeq
        have hjv : kv.1 * j = mv := by rw [← hveq, hcase]
        rw [hjv]
        exact List.mem_append_right _ (List.mem_singleton.mpr rfl)
    · rw [if_neg hcase] at hupd
      subst hupd
      refine ⟨hk1, hk2, m, hm1, hm2, hveq, ?_⟩
      intro j hj1 hj2
      exact List.mem_append_left _ (hist j hj1 hj2)
  -- above
  · intro kv' hkv' x hx
    obtain ⟨hmap, _⟩ := List.mem_filter.mp hkv'
    obtain ⟨kv, hkv, hupd⟩ := List.mem_map.mp hmap
    obtain ⟨hk1, hk2, m, hm1, hm2, hveq, _⟩ := inv.entries kv hkv
    have hxlt : x < mv ∨ x = mv := by
      rcases List.mem_append.mp hx with hxout | hxmv
      · exact Or.inl (hmvout x hxout)
      · exact Or.inr (List.mem_singleton.mp hxmv)
    have hge := hlb kv hkv
    by_cases hcase : kv.2 = mv
    · rw [if_pos hcase] at hupd
      obtain ⟨ha1, ha2⟩ := hadd2 kv.1 kv.2 m hk2 hm2 hveq
      rw [← hupd]
      simp only [ha1]
      have hkpos : 1 ≤ kv.1 := by omega
      omega
    · rw [if_neg hcase] at hupd
      rw [← hupd]
      omega
  -- missing
  · intro k hkmn hkmx habs m' hm'1 hm'2
    by_cases hk : ∀ v, (k, v) ∉ r.data
    · exact List.mem_append_left _ (inv.missing k hkmn hkmx hk m' hm'1 hm'2)
    · push_neg at hk
      obtain ⟨w, hw⟩ := hk
      obtain ⟨hk1, hk2, m, hm1, hm2, hveq, hist⟩ := inv.entries (k, w) hw
      simp only at hk1 hk2 hm1 hveq hist
      have hkm : u64mul k r.max = k * mx := by
        have h := hkmax (k, w) hw
        simpa using h
      by_cases hcase : w = mv
      · obtain ⟨ha1, ha2⟩ := hadd2 k w m hk2 hm2 hveq
        by_cases hmtop : m + 1 ≤ mx
        · exfalso
          apply habs (k * (m + 1))
          apply List.mem_filter.mpr
          refine ⟨List.mem_map.mpr ⟨(k, w), hw, ?_⟩, ?_⟩
          · rw [if_pos (show ((k, w) : Nat × Nat).2 = mv from hcase)]
            show (k, u64add w k) = (k, k * (m + 1))
            rw [ha1, ha2]
          · rw [decide_eq_true_eq]
            simp only
            rw [hkm]
            exact Nat.mul_le_mul_left _ hmtop
        · have hmeq : m = mx := by omega
          by_cases hm'top : m' < mx
          · exact List.mem_append_left _ (hist m' hm'1 (by omega))
          · have hm'eq : m' = mx := by omega
            subst hm'eq
            have hkmv : k * m' = mv := by rw [← hcase, hveq, hmeq]
            rw [hkmv]
            exact List.mem_append_right _ (List.mem_singleton.mpr rfl)
      · exfalso
        apply habs w
        apply List.mem_filter.mpr
        refine ⟨List.mem_map.mpr ⟨(k, w), hw, ?_⟩, ?_⟩
        · simp [hcase]
        · rw [decide_eq_true_eq]
          simp only
          rw [hkm, hveq]
          exact Nat.mul_le_mul_left _ hm2
  -- sorted
  · rw [List.pairwise_append]
    refine ⟨inv.sorted, List.pairwise_singleton _ _, ?_⟩
    intro a ha b hb
    rw [List.mem_singleton.mp hb]
    exact hmvout a ha
  -- sound
  · intro x hx
    rcases List.mem_append.mp hx with hxout | hxmv
    · exact inv.sound x hxout
    · rw [List.mem_singleton.mp hxmv]
      exact hmvprod

/-- Draining through `next` with any fuel preserves the invariant; moreover
either the frontier empties or every single call emitted a value. -/
theorem nexts_inv {mn mx : Nat} (hmn : 1 ≤ mn) (hmx : mx < 4294967296) :
    ∀ (fuel : Nat) (r : ProductRange) (out : List Nat), AscInv mn mx r out →
      AscInv mn mx (nexts r fuel).2 (out ++ (nexts r fuel).1) ∧
        ((nexts r fuel).2.data = [] ∨ (nexts r fuel).1.length = fuel) := by
  intro fuel
  induction fuel with
  | zero =>
    intro r out inv
    exact ⟨by simpa [nexts] using inv, Or.inr rfl⟩
  | succ fuel ih =>
    intro r out inv
    by_cases hd : r.data = []
    · have hunf : nexts r (fuel + 1) = ([], r) := by
        simp only [nexts, next_none hd]
      rw [hunf]
      exact ⟨by simpa using inv, Or.inl hd⟩
    · obtain ⟨v, r', hnext, inv'⟩ := asc_step hmn hmx inv hd
      have hunf : nexts r (fuel + 1) =
          (v :: (nexts r' fuel).1, (nexts r' fuel).2) := by
        simp only [nexts, hnext]
      rw [hunf]
      obtain ⟨ih1, ih2⟩ := ih r' (out ++ [v]) inv'
      constructor
      · simpa [List.append_assoc] using ih1
      · rcases ih2 with h | h
        · exact Or.inl h
        · right
          simp [h]

/-- A duplicate-free list of naturals bounded by `M` has at most `M + 1`
elements. -/
theorem nodup_length_le {l : List Nat} {M : Nat}
    (hnd : l.Nodup) (hb : ∀ x ∈ l, x ≤ M) :
    l.length ≤ M + 1 := by
  have hsub : l.toFinset ⊆ Finset.range (M + 1) := by
    intro x hx
    rw [List.mem_toFinset] at hx
    rw [Finset.mem_range]
    exact Nat.lt_succ_of_le (hb x hx)
  have hcard := Finset.card_le_card hsub
  rw [List.toFinset_card_of_nodup hnd, Finset.card_range] at hcard
  exact hcard

/-- `FUEL mx` calls of `next` exhaust the frontier, and the final output
satisfies the invariant. -/
theorem asc_drain_spec {mn mx : Nat} (hmn : 1 ≤ mn) (hmx : mx < 4294967296) :
    AscInv mn mx (nexts (ProductRange.new mn mx) (FUEL mx)).2
      (nexts (ProductRange.new mn mx) (FUEL mx)).1 ∧
      (nexts (ProductRange.new mn mx) (FUEL mx)).2.data = [] := by
  obtain ⟨inv', hdisj⟩ := nexts_inv hmn hmx (FUEL mx) _ [] (ascInv_new hmn hmx)
  rw [List.nil_append] at inv'
  refine ⟨inv', ?_⟩
  rcases hdisj with h | h
  · exact h
  · exfalso
    have hbound : ∀ x ∈ (nexts (ProductRange.new mn mx) (FUEL mx)).1,
        x ≤ mx * mx := by
      intro x hx
      obtain ⟨a, b, ha1, hab, hb2, hx⟩ := inv'.sound x hx
      subst hx
      exact Nat.mul_le_mul (by omega) hb2
    have hlen := nodup_length_le (inv'.sorted.imp fun h => Nat.ne_of_lt h) hbound
    rw [h] at hlen
    unfold FUEL at hlen
    omega

/-- The completed ascending output contains exactly the achievable products. -/
theorem asc_mem {mn mx : Nat} (hmn : 1 ≤ mn) (hmx : mx < 4294967296) :
    ∀ x, x ∈ (nexts (ProductRange.new mn mx) (FUEL mx)).1 ↔ isProd mn mx x := by
  obtain ⟨inv', hempty⟩ := asc_drain_spec hmn hmx
  intro x
  constructor
  · intro hx
    obtain ⟨a, b, h1, h2, h3, h4⟩ := inv'.sound x hx
    exact ⟨a, b, h1, le_trans h2 h3, le_trans h1 h2, h3, h4⟩
  · rintro ⟨a, b, ha1, ha2, hb1, hb2, hx⟩
    have hnotin : ∀ k, ∀ v, (k, v) ∉ (nexts (ProductRange.new mn mx) (FUEL mx)).2.data := by
      intro k v hv
      rw [hempty] at hv
      cases hv
    rcases Nat.le_total a b with hab | hab
    · have := inv'.missing a ha1 ha2 (hnotin a) b hab hb2
      rw [hx]
      exact this
    · have := inv'.missing b hb1 hb2 (hnotin b) a hab ha2
      rw [hx, Nat.mul_comm]
      exact this

/-! ### The descending drain: mirror invariant and completeness -/

/-- The freshly constructed `ProductRange` satisfies the descending invariant
with empty output. -/
theorem descInv_new {mn mx : Nat} (hmn : 1 ≤ mn) (hmx : mx < 4294967296) :
    DescInv mn mx (ProductRange.new mn mx) [] := by
  refine ⟨rfl, rfl, rfl, ?_, ?_, ?_, ?_, ?_⟩
  · intro kv hkv
    simp only [ProductRange.new, List.mem_map] at hkv
    obtain ⟨i, hi, hkvi⟩ := hkv
    rw [List.mem_range'_1] at hi
    have hile : i ≤ mx := by omega
    have hmul : u64mul i i = i * i :=
      u64mul_eq (mul_lt_U64 hmx hile (by omega))
    subst hkvi
    refine ⟨by omega, hile, i, by omega, le_refl i, by simpa using hmul, ?_⟩
    intro j hj1 hj2
    omega
  · intro kv hkv x hx
    cases hx
  · intro k hk1 hk2 habs m _ _
    exfalso
    apply habs (u64mul k k)
    simp only [ProductRange.new, List.mem_map]
    refine ⟨k, ?_, rfl⟩
    rw [List.mem_range'_1]
    omega
  · exact List.Pairwise.nil
  · intro x hx
    cases hx

/-- One descending step from a nonempty frontier: the emitted value is the
frontier maximum and the invariant is preserved. -/
theorem desc_step {mn mx : Nat} (hmn : 1 ≤ mn) (hmx : mx < 4294967296)
    {r : ProductRange} {out : List Nat} (inv : DescInv mn mx r out)
    (hne : r.data ≠ []) :
    ∃ v r', r.next_back = (some v, r') ∧ DescInv mn mx r' (out ++ [v]) := by
  have hvals : r.data.map Prod.snd ≠ [] := by simpa using hne
  obtain ⟨mv, hmv⟩ := listMax_isSome hvals
  obtain ⟨kvw, hkvw, hkvw2⟩ := List.mem_map.mp (listMax_mem hmv)
  have hub : ∀ kv ∈ r.data, kv.2 ≤ mv := fun kv hkv =>
    listMax_ge hmv _ (List.mem_map_of_mem _ hkv)
  obtain ⟨hw1, hw2, mw, hmw1, hmw2, hmweq, _⟩ := inv.entries kvw hkvw
  have hmvout : ∀ x ∈ out, mv < x := by
    intro x hx
    have h1 := inv.below kvw hkvw x hx
    omega
  have hmvprod : ∃ a b, mn ≤ a ∧ a ≤ b ∧ b ≤ mx ∧ mv = a * b :=
    ⟨mw, kvw.1, hmw1, hmw2, hw2, by rw [← hkvw2, hmweq, Nat.mul_comm]⟩
  have hnext : r.next_back = (some mv, { r with
      data := (r.data.map fun kv =>
          if kv.2 = mv then (kv.1, u64sub kv.2 kv.1) else kv).filter
        fun kv => decide (u64mul kv.1 r.min ≤ kv.2),
      last_max := some mv }) := by
    simp only [ProductRange.next_back, hmv, inv.hlmin]
  refine ⟨mv, _, hnext, ?_⟩
  -- arithmetic facts shared by the components below
  have hsub2 : ∀ k v m : Nat, 1 ≤ m → k ≤ mx → m ≤ k → v = k * m →
      u64sub v k = k * (m - 1) ∧ v - k = k * (m - 1) ∧ k ≤ v := by
    intro k v m hm1 hk hmk hv
    have hkv : k ≤ v := by
      rw [hv]
      calc k = k * 1 := by ring
      _ ≤ k * m := Nat.mul_le_mul_left _ hm1
    have hvU : v < U64 := by
      rw [hv]
      exact mul_lt_U64 hmx hk (by omega)
    have hsub : v - k = k * (m - 1) := by
      rw [hv]
      cases m with
      | zero => omega
      | succ m' =>
        simp only [Nat.mul_succ, Nat.add_sub_cancel, Nat.succ_sub_one]
    exact ⟨by rw [u64sub_eq hkv hvU, hsub], hsub, hkv⟩
  have hkmin : ∀ kv ∈ r.data, u64mul kv.1 r.min = kv.1 * mn := by
    intro kv hkv
    obtain ⟨h1, h2, m, hm1, hm2, _⟩ := inv.entries kv hkv
    rw [inv.hmin]
    exact u64mul_eq (mul_lt_U64 hmx h2 (by omega))
  refine ⟨inv.hmin, inv.hmax, inv.hlmin, ?_, ?_, ?_, ?_, ?_⟩
  -- entries
  · intro kv' hkv'
    obtain ⟨hmap, hfil⟩ := List.mem_filter.mp hkv'
    obtain ⟨kv, hkv, hupd⟩ := List.mem_map.mp hmap
    rw [decide_eq_true_eq] at hfil
    obtain ⟨hk1, hk2, m, hm1, hm2, hveq, hist⟩ := inv.entries kv hkv
    by_cases hcase : kv.2 = mv
    · rw [if_pos hcase] at hupd
      obtain ⟨hs1, hs2, hs3⟩ := hsub2 kv.1 kv.2 m (by omega) hk2 hm2 hveq
      rw [← hupd] at hfil ⊢
      simp only at hfil ⊢
      rw [hs1] at hfil ⊢
      rw [hkmin kv hkv] at hfil
      have hmge : mn ≤ m - 1 :=
        Nat.le_of_mul_le_mul_left hfil (by omega)
      refine ⟨hk1, hk2, m - 1, hmge, by omega, rfl, ?_⟩
      intro j hj1 hj2
      by_cases hjm : m < j
      · exact List.mem_append_left _ (hist j hjm hj2)
      · have hjeq : j = m := by omega
        subst hjeq
        have hjv : kv.1 * j = mv := by rw [← hveq, hcase]
        rw [hjv]
        exact List.mem_append_right _ (List.mem_singleton.mpr rfl)
    · rw [if_neg hcase] at hupd
      subst hupd
      refine ⟨hk1, hk2, m, hm1, hm2, hveq, ?_⟩
      intro j hj1 hj2
      exact List.mem_append_left _ (hist j hj1 hj2)
  -- below
  · intro kv' hkv' x hx
    obtain ⟨hmap, _⟩ := List.mem_filter.mp hkv'
    obtain ⟨kv, hkv, hupd⟩ := List.mem_map.mp hmap
    obtain ⟨hk1, hk2, m, hm1, hm2, hveq, _⟩ := inv.entries kv hkv
    have hxgt : mv < x ∨ x = mv := by
      rcases List.mem_append.mp hx with hxout | hxmv
      · exact Or.inl (hmvout x hxout)
      · exact Or.inr (List.mem_singleton.mp hxmv)
    have hle := hub kv hkv
    by_cases hcase : kv.2 = mv
    · rw [if_pos hcase] at hupd
      obtain ⟨hs1, hs2, hs3⟩ := hsub2 kv.1 kv.2 m (by omega) hk2 hm2 hveq
      rw [← hupd]
      simp only [hs1]
      have hkpos : 1 ≤ kv.1 := by omega
      omega
    · rw [if_neg hcase] at hupd
      rw [← hupd]
      omega
  -- missing
  · intro k hkmn hkmx habs m' hm'1 hm'2
    by_cases hk : ∀ v, (k, v) ∉ r.data
    · exact List.mem_append_left _ (inv.missing k hkmn hkmx hk m' hm'1 hm'2)
    · push_neg at hk
      obtain ⟨w, hw⟩ := hk
      obtain ⟨hk1, hk2, m, hm1, hm2, hveq, hist⟩ := inv.entries (k, w) hw
      simp only at hk1 hk2 hm1 hm2 hveq hist
      have hkm : u64mul k r.min = k * mn := by
        have h := hkmin (k, w) hw
        simpa using h
      by_cases hcase : w = mv
      · obtain ⟨hs1, hs2, hs3⟩ := hsub2 k w m (by omega) hk2 hm2 hveq
        by_cases hmbot : mn ≤ m - 1
        · exfalso
          apply habs (k * (m - 1))
          apply List.mem_filter.mpr
          refine ⟨List.mem_map.mpr ⟨(k, w), hw, ?_⟩, ?_⟩
          · rw [if_pos (show ((k, w) : Nat × Nat).2 = mv from hcase)]
            show (k, u64sub w k) = (k, k * (m - 1))
            rw [hs1]
          · rw [decide_eq_true_eq]
            simp only
            rw [hkm]
            exact Nat.mul_le_mul_left _ hmbot
        · have hmeq : m = mn := by omega
          by_cases hm'bot : mn < m'
          · exact List.mem_append_left _ (hist m' (by omega) hm'2)
          · have hm'eq : m' = mn := by omega
            subst hm'eq
            have hkmv : k * m' = mv := by rw [← hcase, hveq, hmeq]
            rw [hkmv]
            exact List.mem_append_right _ (List.mem_singleton.mpr rfl)
      · exfalso
        apply habs w
        apply List.mem_filter.mpr
        refine ⟨List.mem_map.mpr ⟨(k, w), hw, ?_⟩, ?_⟩
        · rw [if_neg (show ¬((k, w) : Nat × Nat).2 = mv from hcase)]
        · rw [decide_eq_true_eq]
          simp only
          rw [hkm, hveq]
          exact Nat.mul_le_mul_left _ hm1
  -- sorted
  · rw [List.pairwise_append]
    refine ⟨inv.sorted, List.pairwise_singleton _ _, ?_⟩
    intro a ha b hb
    rw [List.mem_singleton.mp hb]
    exact hmvout a ha
  -- sound
  · intro x hx
    rcases List.mem_append.mp hx with hxout | hxmv
    · exact inv.sound x hxout
    · rw [List.mem_singleton.mp hxmv]
      exact hmvprod

/-- Draining through `next_back` with any fuel preserves the invariant;
either the frontier empties or every single call emitted a value. -/
theorem nextsBack_inv {mn mx : Nat} (hmn : 1 ≤ mn) (hmx : mx < 4294967296) :
    ∀ (fuel : Nat) (r : ProductRange) (out : List Nat), DescInv mn mx r out →
      DescInv mn mx (nextsBack r fuel).2 (out ++ (nextsBack r fuel).1) ∧
        ((nextsBack r fuel).2.data = [] ∨ (nextsBack r fuel).1.length = fuel) := by
  intro fuel
  induction fuel with
  | zero =>
    intro r out inv
    exact ⟨by simpa [nextsBack] using inv, Or.inr rfl⟩
  | succ fuel ih =>
    intro r out inv
    by_cases hd : r.data = []
    · have hunf : nextsBack r (fuel + 1) = ([], r) := by
        simp only [nextsBack, next_back_none hd]
      rw [hunf]
      exact ⟨by simpa using inv, Or.inl hd⟩
    · obtain ⟨v, r', hnext, inv'⟩ := desc_step hmn hmx inv hd
      have hunf : nextsBack r (fuel + 1) =
          (v :: (nextsBack r' fuel).1, (nextsBack r' fuel).2) := by
        simp only [nextsBack, hnext]
      rw [hunf]
      obtain ⟨ih1, ih2⟩ := ih r' (out ++ [v]) inv'
      constructor
      · simpa [List.append_assoc] using ih1
      · rcases ih2 with h | h
        · exact Or.inl h
        · right
          simp [h]

/-- `FUEL mx` calls of `next_back` exhaust the frontier, and the final output
satisfies the descending invariant. -/
theorem desc_drain_spec {mn mx : Nat} (hmn : 1 ≤ mn) (hmx : mx < 4294967296) :
    DescInv mn mx (nextsBack (ProductRange.new mn mx) (FUEL mx)).2
      (nextsBack (ProductRange.new mn mx) (FUEL mx)).1 ∧
      (nextsBack (ProductRange.new mn mx) (FUEL mx)).2.data = [] := by
  obtain ⟨inv', hdisj⟩ := nextsBack_inv hmn hmx (FUEL mx) _ [] (descInv_new hmn hmx)
  rw [List.nil_append] at inv'
  refine ⟨inv', ?_⟩
  rcases hdisj with h | h
  · exact h
  · exfalso
    have hbound : ∀ x ∈ (nextsBack (ProductRange.new mn mx) (FUEL mx)).1,
        x ≤ mx * mx := by
      intro x hx
      obtain ⟨a, b, ha1, hab, hb2, hx⟩ := inv'.sound x hx
      subst hx
      exact Nat.mul_le_mul (by omega) hb2
    have hlen := nodup_length_le (inv'.sorted.imp fun h => Nat.ne_of_gt h) hbound
    rw [h] at hlen
    unfold FUEL at hlen
    omega

/-- The completed descending output contains exactly the achievable products. -/
theorem desc_mem {mn mx : Nat} (hmn : 1 ≤ mn) (hmx : mx < 4294967296) :
    ∀ x, x ∈ (nextsBack (ProductRange.new mn mx) (FUEL mx)).1 ↔ isProd mn mx x := by
  obtain ⟨inv', hempty⟩ := desc_drain_spec hmn hmx
  intro x
  constructor
  · intro hx
    obtain ⟨a, b, h1, h2, h3, h4⟩ := inv'.sound x hx
    exact ⟨a, b, h1, le_trans h2 h3, le_trans h1 h2, h3, h4⟩
  · rintro ⟨a, b, ha1, ha2, hb1, hb2, hx⟩
    have hnotin : ∀ k v,
        (k, v) ∉ (nextsBack (ProductRange.new mn mx) (FUEL mx)).2.data := by
      intro k v hv
      rw [hempty] at hv
      cases hv
    rcases Nat.le_total a b with hab | hab
    · have := inv'.missing b hb1 hb2 (hnotin b) a ha1 hab
      rw [hx, Nat.mul_comm]
      exact this
    · have := inv'.missing a ha1 ha2 (hnotin a) b hb1 hab
      rw [hx]
      exact this

/-- Two strictly increasing lists of naturals with the same members are
equal. -/
theorem sorted_eq_of_mem_iff :
    ∀ {l₁ l₂ : List Nat}, List.Pairwise (· < ·) l₁ → List.Pairwise (· < ·) l₂ →
      (∀ x, x ∈ l₁ ↔ x ∈ l₂) → l₁ = l₂ := by
  intro l₁
  induction l₁ with
  | nil =>
    intro l₂ _ _ h
    cases l₂ with
    | nil => rfl
    | cons y ys => exact absurd ((h y).mpr (List.mem_cons_self y ys)) (List.not_mem_nil y)
  | cons x xs ih =>
    intro l₂ h₁ h₂ h
    cases l₂ with
    | nil => exact absurd ((h x).mp (List.mem_cons_self x xs)) (List.not_mem_nil x)
    | cons y ys =>
      have hx2 : x ∈ y :: ys := (h x).mp (List.mem_cons_self x xs)
      have hy1 : y ∈ x :: xs := (h y).mpr (List.mem_cons_self y ys)
      have hxy : x = y := by
        rcases List.mem_cons.mp hx2 with he | hxys
        · exact he
        · rcases List.mem_cons.mp hy1 with he | hyxs
          · exact he.symm
          · have h1 := (List.pairwise_cons.mp h₁).1 y hyxs
            have h2 := (List.pairwise_cons.mp h₂).1 x hxys
            omega
      subst hxy
      have htails : ∀ z, z ∈ xs ↔ z ∈ ys := by
        intro z
        constructor
        · intro hz
          have hlt := (List.pairwise_cons.mp h₁).1 z hz
          have : z ∈ x :: ys := (h z).mp (List.mem_cons_of_mem x hz)
          rcases List.mem_cons.mp this with he | hok
          · omega
          · exact hok
        · intro hz
          have hlt := (List.pairwise_cons.mp h₂).1 z hz
          have : z ∈ x :: xs := (h z).mpr (List.mem_cons_of_mem x hz)
          rcases List.mem_cons.mp this with he | hok
          · omega
          · exact hok
      rw [ih (List.pairwise_cons.mp h₁).2 (List.pairwise_cons.mp h₂).2 htails]

/-! ### Interleaved draining: the shared-instance invariant -/

/-- The freshly constructed `ProductRange` satisfies the interleaving
invariant. -/
theorem mixInv_new {mn mx : Nat} (hmn : 1 ≤ mn) (hmx : mx < 4294967296) :
    MixInv mn mx (ProductRange.new mn mx) := by
  refine ⟨rfl, rfl, ?_, ?_, ?_⟩
  · intro kv hkv
    simp only [ProductRange.new, List.mem_map] at hkv
    obtain ⟨i, hi, hkvi⟩ := hkv
    rw [List.mem_range'_1] at hi
    have hile : i ≤ mx := by omega
    have hmul : u64mul i i = i * i :=
      u64mul_eq (mul_lt_U64 hmx hile (by omega))
    subst hkvi
    exact ⟨by omega, hile, i, by omega, hile, by simpa using hmul⟩
  · intro l hl
    cases hl
  · intro L hL
    cases hL

/-- One `next` call on a nonempty frontier under the interleaving invariant:
the emitted value is a product lying strictly between the two watermarks and
becomes the new `last_min`. -/
theorem mix_step_next {mn mx : Nat} (hmn : 1 ≤ mn) (hmx : mx < 4294967296)
    {r : ProductRange} (inv : MixInv mn mx r) (hne : r.data ≠ []) :
    ∃ v r', r.next = (some v, r') ∧ MixInv mn mx r' ∧
      r'.last_min = some v ∧ r'.last_max = r.last_max ∧
      isProd mn mx v ∧
      (∀ l, r.last_min = some l → l < v) ∧
      (∀ L, r.last_max = some L → v < L) := by
  have hvals : r.data.map Prod.snd ≠ [] := by simpa using hne
  obtain ⟨mv, hmv⟩ := listMin_isSome hvals
  obtain ⟨kvw, hkvw, hkvw2⟩ := List.mem_map.mp (listMin_mem hmv)
  have hlb : ∀ kv ∈ r.data, mv ≤ kv.2 := fun kv hkv =>
    listMin_le hmv _ (List.mem_map_of_mem _ hkv)
  obtain ⟨hw1, hw2, mw, hmw1, hmw2, hmweq⟩ := inv.entries kvw hkvw
  have hprod : isProd mn mx mv :=
    ⟨kvw.1, mw, hw1, hw2, hmw1, hmw2, by rw [← hkvw2, hmweq]⟩
  have hblo : ∀ l, r.last_min = some l → l < mv := fun l hl => by
    have := inv.hlmin l hl kvw hkvw
    omega
  have hbhi : ∀ L, r.last_max = some L → mv < L := fun L hL => by
    have := inv.hlmax L hL kvw hkvw
    omega
  -- membership in the updated-and-bound-filtered list
  have hkept : ∀ kv', kv' ∈ ((r.data.map fun kv =>
      if kv.2 = mv then (kv.1, u64add kv.2 kv.1) else kv).filter
        fun kv => decide (kv.2 ≤ u64mul kv.1 r.max)) →
      (mn ≤ kv'.1 ∧ kv'.1 ≤ mx ∧ ∃ m, mn ≤ m ∧ m ≤ mx ∧ kv'.2 = kv'.1 * m) ∧
        mv < kv'.2 := by
    intro kv' hkv'
    obtain ⟨hmap, hfil⟩ := List.mem_filter.mp hkv'
    obtain ⟨kv, hkv, hupd⟩ := List.mem_map.mp hmap
    rw [decide_eq_true_eq] at hfil
    obtain ⟨hk1, hk2, m, hm1, hm2, hveq⟩ := inv.entries kv hkv
    have hge := hlb kv hkv
    have hkmax : u64mul kv.1 r.max = kv.1 * mx := by
      rw [inv.hmax]
      exact u64mul_eq (mul_lt_U64 hmx hk2 (by omega))
    by_cases hcase : kv.2 = mv
    · rw [if_pos hcase] at hupd
      have hlt : kv.1 * (m + 1) < U64 := mul_lt_U64 hmx hk2 (by omega)
      have heq : kv.2 + kv.1 = kv.1 * (m + 1) := by rw [hveq]; ring
      have hadd : u64add kv.2 kv.1 = kv.1 * (m + 1) := by
        rw [u64add_eq (by rw [heq]; exact hlt), heq]
      rw [← hupd] at hfil ⊢
      simp only [hadd] at hfil ⊢
      rw [hkmax] at hfil
      have hmle : m + 1 ≤ mx := Nat.le_of_mul_le_mul_left hfil (by omega)
      refine ⟨⟨hk1, hk2, m + 1, by omega, hmle, rfl⟩, ?_⟩
      have hstep : kv.1 * m < kv.1 * (m + 1) := by
        have hkpos : 0 < kv.1 := by omega
        exact (Nat.mul_lt_mul_left hkpos).mpr (by omega)
      omega
    · rw [if_neg hcase] at hupd
      rw [← hupd]
      exact ⟨⟨hk1, hk2, m, hm1, hm2, hveq⟩, by omega⟩
  cases hLM : r.last_max with
  | none =>
    have hnext : r.next = (some mv, { r with
        data := (r.data.map fun kv =>
            if kv.2 = mv then (kv.1, u64add kv.2 kv.1) else kv).filter
          fun kv => decide (kv.2 ≤ u64mul kv.1 r.max),
        last_min := some mv }) := by
      simp only [ProductRange.next, hmv, hLM]
    refine ⟨mv, _, hnext, ?_, rfl, hLM, hprod, hblo, ?_⟩
    · refine ⟨inv.hmin, inv.hmax, ?_, ?_, ?_⟩
      · intro kv' hkv'
        exact (hkept kv' hkv').1
      · intro l hl kv' hkv'
        injection hl with hl
        rw [← hl]
        exact (hkept kv' hkv').2
      · intro L hL kv' hkv'
        have hL2 : r.last_max = some L := hL
        rw [hLM] at hL2
        cases hL2
    · intro L hL
      cases hL
  | some L =>
    have hnext : r.next = (some mv, { r with
        data := ((r.data.map fun kv =>
            if kv.2 = mv then (kv.1, u64add kv.2 kv.1) else kv).filter
          fun kv => decide (kv.2 ≤ u64mul kv.1 r.max)).filter
            fun kv => decide (kv.2 < L),
        last_min := some mv }) := by
      simp only [ProductRange.next, hmv, hLM]
    refine ⟨mv, _, hnext, ?_, rfl, hLM, hprod, hblo, ?_⟩
    · refine ⟨inv.hmin, inv.hmax, ?_, ?_, ?_⟩
      · intro kv' hkv'
        exact (hkept kv' (List.mem_of_mem_filter hkv')).1
      · intro l hl kv' hkv'
        injection hl with hl
        rw [← hl]
        exact (hkept kv' (List.mem_of_mem_filter hkv')).2
      · intro L' hL' kv' hkv'
        have hL2 : r.last_max = some L' := hL'
        rw [hLM] at hL2
        injection hL2 with hL2
        obtain ⟨_, hfil⟩ := List.mem_filter.mp hkv'
        rw [decide_eq_true_eq] at hfil
        rw [← hL2]
        exact hfil
    · intro L' hL'
      injection hL' with hL'
      rw [← hL']
      have := inv.hlmax L hLM kvw hkvw
      omega

/-- One `next_back` call on a nonempty frontier under the interleaving
invariant: the emitted value is a product lying strictly between the two
watermarks and becomes the new `last_max`. -/
theorem mix_step_next_back {mn mx : Nat} (hmn : 1 ≤ mn) (hmx : mx < 4294967296)
    {r : ProductRange} (inv : MixInv mn mx r) (hne : r.data ≠ []) :
    ∃ v r', r.next_back = (some v, r') ∧ MixInv mn mx r' ∧
      r'.last_max = some v ∧ r'.last_min = r.last_min ∧
      isProd mn mx v ∧
      (∀ l, r.last_min = some l → l < v) ∧
      (∀ L, r.last_max = some L → v < L) := by
  have hvals : r.data.map Prod.snd ≠ [] := by simpa using hne
  obtain ⟨mv, hmv⟩ := listMax_isSome hvals
  obtain ⟨kvw, hkvw, hkvw2⟩ := List.mem_map.mp (listMax_mem hmv)
  have hub : ∀ kv ∈ r.data, kv.2 ≤ mv := fun kv hkv =>
    listMax_ge hmv _ (List.mem_map_of_mem _ hkv)
  obtain ⟨hw1, hw2, mw, hmw1, hmw2, hmweq⟩ := inv.entries kvw hkvw
  have hprod : isProd mn mx mv :=
    ⟨kvw.1, mw, hw1, hw2, hmw1, hmw2, by rw [← hkvw2, hmweq]⟩
  have hbhi : ∀ L, r.last_max = some L → mv < L := fun L hL => by
    have := inv.hlmax L hL kvw hkvw
    omega
  -- membership in the updated-and-bound-filtered list
  have hkept : ∀ kv', kv' ∈ ((r.data.map fun kv =>
      if kv.2 = mv then (kv.1, u64sub kv.2 kv.1) else kv).filter
        fun kv => decide (u64mul kv.1 r.min ≤ kv.2)) →
      (mn ≤ kv'.1 ∧ kv'.1 ≤ mx ∧ ∃ m, mn ≤ m ∧ m ≤ mx ∧ kv'.2 = kv'.1 * m) ∧
        kv'.2 < mv := by
    intro kv' hkv'
    obtain ⟨hmap, hfil⟩ := List.mem_filter.mp hkv'
    obtain ⟨kv, hkv, hupd⟩ := List.mem_map.mp hmap
    rw [decide_eq_true_eq] at hfil
    obtain ⟨hk1, hk2, m, hm1, hm2, hveq⟩ := inv.entries kv hkv
    have hle := hub kv hkv
    have hkmin : u64mul kv.1 r.min = kv.1 * mn := by
      rw [inv.hmin]
      exact u64mul_eq (mul_lt_U64 hmx hk2 (by omega))
    by_cases hcase : kv.2 = mv
    · rw [if_pos hcase] at hupd
      have hkv2 : kv.1 ≤ kv.2 := by
        rw [hveq]
        calc kv.1 = kv.1 * 1 := by ring
        _ ≤ kv.1 * m := Nat.mul_le_mul_left _ (by omega)
      have hvU : kv.2 < U64 := by
        rw [hveq]
        exact mul_lt_U64 hmx hk2 (by omega)
      have hsubeq : kv.2 - kv.1 = kv.1 * (m - 1) := by
        rw [hveq]
        cases m with
        | zero => omega
        | succ m' =>
          simp only [Nat.mul_succ, Nat.add_sub_cancel, Nat.succ_sub_one]
      have hsub : u64sub kv.2 kv.1 = kv.1 * (m - 1) := by
        rw [u64sub_eq hkv2 hvU, hsubeq]
      rw [← hupd] at hfil ⊢
      simp only [hsub] at hfil ⊢
      rw [hkmin] at hfil
      have hmge : mn ≤ m - 1 := Nat.le_of_mul_le_mul_left hfil (by omega)
      refine ⟨⟨hk1, hk2, m - 1, hmge, by omega, rfl⟩, ?_⟩
      have hlt : kv.1 * (m - 1) < kv.1 * m := by
        have hkpos : 0 < kv.1 := by omega
        exact (Nat.mul_lt_mul_left hkpos).mpr (by omega)
      omega
    · rw [if_neg hcase] at hupd
      rw [← hupd]
      exact ⟨⟨hk1, hk2, m, hm1, hm2, hveq⟩, by omega⟩
  cases hLM : r.last_min with
  | none =>
    have hnext : r.next_back = (some mv, { r with
        data := (r.data.map fun kv =>
            if kv.2 = mv then (kv.1, u64sub kv.2 kv.1) else kv).filter
          fun kv => decide (u64mul kv.1 r.min ≤ kv.2),
        last_max := some mv }) := by
      simp only [ProductRange.next_back, hmv, hLM]
    refine ⟨mv, _, hnext, ?_, rfl, hLM, hprod, ?_, hbhi⟩
    · refine ⟨inv.hmin, inv.hmax, ?_, ?_, ?_⟩
      · intro kv' hkv'
        exact (hkept kv' hkv').1
      · intro l hl kv' hkv'
        have hl2 : r.last_min = some l := hl
        rw [hLM] at hl2
        cases hl2
      · intro L hL kv' hkv'
        injection hL with hL
        rw [← hL]
        exact (hkept kv' hkv').2
    · intro l hl
      cases hl
  | some l0 =>
    have hnext : r.next_back = (some mv, { r with
        data := ((r.data.map fun kv =>
            if kv.2 = mv then (kv.1, u64sub kv.2 kv.1) else kv).filter
          fun kv => decide (u64mul kv.1 r.min ≤ kv.2)).filter
            fun kv => decide (l0 < kv.2),
        last_max := some mv }) := by
      simp only [ProductRange.next_back, hmv, hLM]
    refine ⟨mv, _, hnext, ?_, rfl, hLM, hprod, ?_, hbhi⟩
    · refine ⟨inv.hmin, inv.hmax, ?_, ?_, ?_⟩
      · intro kv' hkv'
        exact (hkept kv' (List.mem_of_mem_filter hkv')).1
      · intro l hl kv' hkv'
        have hl2 : r.last_min = some l := hl
        rw [hLM] at hl2
        injection hl2 with hl2
        obtain ⟨_, hfil⟩ := List.mem_filter.mp hkv'
        rw [decide_eq_true_eq] at hfil
        rw [← hl2]
        exact hfil
      · intro L hL kv' hkv'
        injection hL with hL
        rw [← hL]
        exact (hkept kv' (List.mem_of_mem_filter hkv')).2
    · intro l hl
      injection hl with hl
      rw [← hl]
      have := inv.hlmin l0 hLM kvw hkvw
      omega

/-- Any interleaving of `next` and `next_back` calls on one instance emits
only products, respects both watermarks, and obeys `sepOrder` pairwise. -/
theorem runMix_spec {mn mx : Nat} (hmn : 1 ≤ mn) (hmx : mx < 4294967296) :
    ∀ (ds : List Bool) (r : ProductRange), MixInv mn mx r →
      MixInv mn mx (runMix r ds).2 ∧
      (∀ e ∈ (runMix r ds).1,
        isProd mn mx e.2 ∧
        (∀ l, r.last_min = some l → l < e.2) ∧
        (∀ L, r.last_max = some L → e.2 < L)) ∧
      List.Pairwise sepOrder (runMix r ds).1 := by
  intro ds
  induction ds with
  | nil =>
    intro r inv
    refine ⟨inv, ?_, ?_⟩
    · intro e he
      cases he
    · exact List.Pairwise.nil
  | cons d rest ih =>
    intro r inv
    by_cases hd : r.data = []
    · have hstep : (if d then r.next else r.next_back) = (none, r) := by
        cases d
        · simp [next_back_none hd]
        · simp [next_none hd]
      have hunf : runMix r (d :: rest) = runMix r rest := by
        simp only [runMix, hstep]
      rw [hunf]
      exact ih r inv
    · cases d with
      | true =>
        obtain ⟨v, r', hnext, inv', hlm', hLM', hprod, hblo, hbhi⟩ :=
          mix_step_next hmn hmx inv hd
        have hunf : runMix r (true :: rest) =
            ((true, v) :: (runMix r' rest).1, (runMix r' rest).2) := by
          simp [runMix, hnext]
        rw [hunf]
        obtain ⟨ihinv, ihfacts, ihpw⟩ := ih r' inv'
        refine ⟨ihinv, ?_, ?_⟩
        · intro e he
          rcases List.mem_cons.mp he with he | he
          · subst he
            exact ⟨hprod, hblo, hbhi⟩
          · obtain ⟨hprod', hblo', hbhi'⟩ := ihfacts e he
            refine ⟨hprod', ?_, ?_⟩
            · intro l hl
              have h1 := hblo' v hlm'
              have h2 := hblo l hl
              omega
            · intro L hL
              exact hbhi' L (by rw [hLM']; exact hL)
        · refine List.Pairwise.cons ?_ ihpw
          intro e he
          obtain ⟨_, hblo', _⟩ := ihfacts e he
          have := hblo' v hlm'
          simpa [sepOrder] using this
      | false =>
        obtain ⟨v, r', hnext, inv', hLM', hlm', hprod, hblo, hbhi⟩ :=
          mix_step_next_back hmn hmx inv hd
        have hunf : runMix r (false :: rest) =
            ((false, v) :: (runMix r' rest).1, (runMix r' rest).2) := by
          simp [runMix, hnext]
        rw [hunf]
        obtain ⟨ihinv, ihfacts, ihpw⟩ := ih r' inv'
        refine ⟨ihinv, ?_, ?_⟩
        · intro e he
          rcases List.mem_cons.mp he with he | he
          · subst he
            exact ⟨hprod, hblo, hbhi⟩
          · obtain ⟨hprod', hblo', hbhi'⟩ := ihfacts e he
            refine ⟨hprod', ?_, ?_⟩
            · intro l hl
              exact hblo' l (by rw [hlm']; exact hl)
            · intro L hL
              have h1 := hbhi' v hLM'
              have h2 := hbhi L hL
              omega
        · refine List.Pairwise.cons ?_ ihpw
          intro e he
          obtain ⟨_, _, hbhi'⟩ := ihfacts e he
          have := hbhi' v hLM'
          simpa [sepOrder] using this

/-! ### Relating `find_map` to the drain outputs -/

/-- The fuelled `find_map` over `next` equals `findSome?` over the fuelled
ascending emission list. -/
theorem findMapPal_eq : ∀ (fuel : Nat) (r : ProductRange),
    findMapPal r fuel = ((nexts r fuel).1).findSome? Palindrome.new := by
  intro fuel
  induction fuel with
  | zero => intro r; rfl
  | succ fuel ih =>
    intro r
    cases hn : r.next with
    | mk o r1 =>
      cases o with
      | none => simp [findMapPal, nexts, hn]
      | some v =>
        simp only [findMapPal, nexts, hn, List.findSome?_cons]
        cases hp : Palindrome.new v <;> simp [hp, ih]

/-- The fuelled `find_map` over `next_back` equals `findSome?` over the
fuelled descending emission list. -/
theorem findMapPalBack_eq : ∀ (fuel : Nat) (r : ProductRange),
    findMapPalBack r fuel = ((nextsBack r fuel).1).findSome? Palindrome.new := by
  intro fuel
  induction fuel with
  | zero => intro r; rfl
  | succ fuel ih =>
    intro r
    cases hn : r.next_back with
    | mk o r1 =>
      cases o with
      | none => simp [findMapPalBack, nextsBack, hn]
      | some v =>
        simp only [findMapPalBack, nextsBack, hn, List.findSome?_cons]
        cases hp : Palindrome.new v <;> simp [hp, ih]

/-- On a strictly increasing list, `findSome? Palindrome.new` returns the
least palindromic member. -/
theorem findSome_pal_first {p : Nat} (hp : (Palindrome.new p).isSome = true) :
    ∀ {l : List Nat}, List.Pairwise (· < ·) l → p ∈ l →
      (∀ x ∈ l, (Palindrome.new x).isSome = true → p ≤ x) →
      l.findSome? Palindrome.new = some ⟨p⟩ := by
  intro l
  induction l with
  | nil =>
    intro _ hmem _
    cases hmem
  | cons a t ih =>
    intro hs hmem hmin
    by_cases ha : (Palindrome.new a).isSome = true
    · have hpa : p ≤ a := hmin a (List.mem_cons_self a t) ha
      have hap : p = a := by
        rcases List.mem_cons.mp hmem with he | ht
        · exact he
        · have := (List.pairwise_cons.mp hs).1 p ht
          omega
      subst hap
      simp [List.findSome?_cons, Palindrome.new_of_isSome hp]
    · have hne : p ≠ a := fun he => ha (he ▸ hp)
      have ht : p ∈ t := by
        rcases List.mem_cons.mp hmem with he | h
        · exact absurd he hne
        · exact h
      rw [List.findSome?_cons, Palindrome.new_of_not_isSome ha]
      exact ih (List.pairwise_cons.mp hs).2 ht
        fun x hx hpx => hmin x (List.mem_cons_of_mem _ hx) hpx

/-- On a strictly decreasing list, `findSome? Palindrome.new` returns the
greatest palindromic member. -/
theorem findSome_pal_first_desc {p : Nat} (hp : (Palindrome.new p).isSome = true) :
    ∀ {l : List Nat}, List.Pairwise (· > ·) l → p ∈ l →
      (∀ x ∈ l, (Palindrome.new x).isSome = true → x ≤ p) →
      l.findSome? Palindrome.new = some ⟨p⟩ := by
  intro l
  induction l with
  | nil =>
    intro _ hmem _
    cases hmem
  | cons a t ih =>
    intro hs hmem hmax
    by_cases ha : (Palindrome.new a).isSome = true
    · have hpa : a ≤ p := hmax a (List.mem_cons_self a t) ha
      have hap : p = a := by
        rcases List.mem_cons.mp hmem with he | ht
        · exact he
        · have := (List.pairwise_cons.mp hs).1 p ht
          omega
      subst hap
      simp [List.findSome?_cons, Palindrome.new_of_isSome hp]
    · have hne : p ≠ a := fun he => ha (he ▸ hp)
      have ht : p ∈ t := by
        rcases List.mem_cons.mp hmem with he | h
        · exact absurd he hne
        · exact h
      rw [List.findSome?_cons, Palindrome.new_of_not_isSome ha]
      exact ih (List.pairwise_cons.mp hs).2 ht
        fun x hx hpx => hmax x (List.mem_cons_of_mem _ hx) hpx

/-- A successful `findSome? Palindrome.new` returns a palindromic member of
the list, wrapped. -/
theorem findSome_pal_mem : ∀ {l : List Nat} {q : Palindrome},
    l.findSome? Palindrome.new = some q →
    q.val ∈ l ∧ (Palindrome.new q.val).isSome = true := by
  intro l
  induction l with
  | nil =>
    intro q h
    cases h
  | cons a t ih =>
    intro q h
    rw [List.findSome?_cons] at h
    cases hp : Palindrome.new a with
    | some pa =>
      rw [hp] at h
      injection h with h
      subst h
      have hval := Palindrome.new_val hp
      constructor
      · rw [hval]
        exact List.mem_cons_self a t
      · rw [hval, hp]
        rfl
    | none =>
      rw [hp] at h
      obtain ⟨h1, h2⟩ := ih h
      exact ⟨List.mem_cons_of_mem _ h1, h2⟩

/-- On a strictly increasing list, the value returned by
`findSome? Palindrome.new` is a lower bound of all palindromic members. -/
theorem findSome_pal_min : ∀ {l : List Nat} {q : Palindrome},
    List.Pairwise (· < ·) l → l.findSome? Palindrome.new = some q →
    ∀ x ∈ l, (Palindrome.new x).isSome = true → q.val ≤ x := by
  intro l
  induction l with
  | nil =>
    intro q _ h
    cases h
  | cons a t ih =>
    intro q hs h x hx hpal
    rw [List.findSome?_cons] at h
    cases hp : Palindrome.new a with
    | some pa =>
      rw [hp] at h
      injection h with h
      subst h
      have hval := Palindrome.new_val hp
      rcases List.mem_cons.mp hx with he | hxt
      · omega
      · have := (List.pairwise_cons.mp hs).1 x hxt
        omega
    | none =>
      rw [hp] at h
      rcases List.mem_cons.mp hx with he | hxt
      · subst he
        rw [hp] at hpal
        cases hpal
      · exact ih (List.pairwise_cons.mp hs).2 h x hxt hpal

/-- Characterisation of `palindrome_products` on well-behaved ranges: it
returns exactly the least and greatest palindromic achievable products. -/
theorem palindrome_products_eq {mn mx : Nat} (hmn : 1 ≤ mn)
    (hmx : mx < 4294967296) {p q : Nat}
    (hpProd : isProd mn mx p) (hpPal : (Palindrome.new p).isSome = true)
    (hpMin : ∀ x, isProd mn mx x → (Palindrome.new x).isSome = true → p ≤ x)
    (hqProd : isProd mn mx q) (hqPal : (Palindrome.new q).isSome = true)
    (hqMax : ∀ x, isProd mn mx x → (Palindrome.new x).isSome = true → x ≤ q) :
    palindrome_products mn mx = some (⟨p⟩, ⟨q⟩) := by
  have hasc := asc_mem hmn hmx
  have hdesc := desc_mem hmn hmx
  obtain ⟨ascInv, _⟩ := asc_drain_spec hmn hmx
  obtain ⟨descInv, _⟩ := desc_drain_spec hmn hmx
  have h1 : findMapPal (ProductRange.new mn mx) (FUEL mx) = some ⟨p⟩ := by
    rw [findMapPal_eq]
    exact findSome_pal_first hpPal ascInv.sorted ((hasc p).mpr hpProd)
      fun x hx hpal => hpMin x ((hasc x).mp hx) hpal
  have h2 : findMapPalBack (ProductRange.new mn mx) (FUEL mx) = some ⟨q⟩ := by
    rw [findMapPalBack_eq]
    exact findSome_pal_first_desc hqPal descInv.sorted ((hdesc q).mpr hqProd)
      fun x hx hpal => hqMax x ((hdesc x).mp hx) hpal
  simp only [palindrome_products, h1, h2]

theorem allBelow_spec {n : Nat} {p : Nat → Bool} (h : allBelow n p = true) :
    ∀ i, i < n → p i = true := by
  intro i hi
  exact List.all_eq_true.mp h i (List.mem_range.mpr hi)

/-! ### The claims -/

/-- C4. `Palindrome::new v` returns `Some` iff the decimal digit sequence of
`v` reads identically forwards and backwards; every value below 10 is
accepted; a constructed `Palindrome` carries exactly the validated value. -/
theorem C4_palindrome_new_iff (v : Nat) :
    ((Palindrome.new v).isSome = true ↔
      decimalDigits v = (decimalDigits v).reverse) ∧
    (v < 10 → (Palindrome.new v).isSome = true) ∧
    (∀ p, Palindrome.new v = some p → p.val = v) := by
  refine ⟨?_, ?_, fun p h => Palindrome.new_val h⟩
  · by_cases h10 : v < 10
    · simp only [Palindrome.new, if_pos h10, Option.isSome_some, true_iff]
      interval_cases v <;> decide
    · simp only [Palindrome.new, if_neg h10]
      split
      · rename_i hcond
        exact ⟨fun _ => hcond, fun _ => rfl⟩
      · rename_i hcond
        constructor
        · intro habs
          simp at habs
        · intro hc
          exact absurd hc hcond
  · intro h10
    simp [Palindrome.new, h10]

/-- C4 witness: the theorem applied at the concrete input 121. -/
theorem C4_witness :
    ((Palindrome.new 121).isSome = true ↔
      decimalDigits 121 = (decimalDigits 121).reverse) ∧
    (121 < 10 → (Palindrome.new 121).isSome = true) ∧
    (∀ p, Palindrome.new 121 = some p → p.val = 121) :=
  C4_palindrome_new_iff 121

/-- C5. For `min > max` the constructed enumerator is empty and immediately
exhausted (first `next` and first `next_back` both reply `None` and leave the
state unchanged), and `palindrome_products` returns `None`. -/
theorem C5_empty_range (mn mx : Nat) (h : mx < mn) :
    palindrome_products mn mx = none ∧
    (ProductRange.new mn mx).data = [] ∧
    (ProductRange.new mn mx).next = (none, ProductRange.new mn mx) ∧
    (ProductRange.new mn mx).next_back = (none, ProductRange.new mn mx) := by
  have hdata : (ProductRange.new mn mx).data = [] := by
    simp [ProductRange.new, Nat.sub_eq_zero_of_le (by omega : mx + 1 ≤ mn)]
  have hfm : ∀ fuel, findMapPal (ProductRange.new mn mx) fuel = none := by
    intro fuel
    cases fuel with
    | zero => rfl
    | succ f => simp [findMapPal, next_none hdata]
  have hfmb : ∀ fuel, findMapPalBack (ProductRange.new mn mx) fuel = none := by
    intro fuel
    cases fuel with
    | zero => rfl
    | succ f => simp [findMapPalBack, next_back_none hdata]
  exact ⟨by simp only [palindrome_products, hfm, hfmb], hdata,
    next_none hdata, next_back_none hdata⟩

/-- C5 witness: the theorem applied at the concrete input `(100, 10)`. -/
theorem C5_witness :
    palindrome_products 100 10 = none ∧
    (ProductRange.new 100 10).data = [] ∧
    (ProductRange.new 100 10).next = (none, ProductRange.new 100 10) ∧
    (ProductRange.new 100 10).next_back = (none, ProductRange.new 100 10) :=
  C5_empty_range 100 10 (by omega)

/-- C1 counterexample: at `(min, max) = (0, 0)` (a legal `min ≤ max` range)
the ascending drain emits the value 0 twice in a row, so the output is not
strictly increasing and a product is re-emitted. -/
theorem C1_counterexample :
    (nexts (ProductRange.new 0 0) 2).1 = [0, 0] ∧
    ¬ List.Pairwise (· < ·) (nexts (ProductRange.new 0 0) 2).1 := by
  decide

/-- C1 amended: for `1 ≤ min` and `max ≤ 2 ^ 32 - 1`, every value emitted by
the ascending drain is a product `a * b` with `a, b ∈ [min, max]`, the output
is strictly increasing (so duplicate products appear at most once), and every
achievable product is emitted (so each appears exactly once). -/
theorem C1_asc_sorted_products {mn mx : Nat} (hmn : 1 ≤ mn)
    (hmx : mx ≤ 4294967295) :
    (∀ x ∈ (nexts (ProductRange.new mn mx) (FUEL mx)).1, isProd mn mx x) ∧
    List.Pairwise (· < ·) (nexts (ProductRange.new mn mx) (FUEL mx)).1 ∧
    (∀ x, isProd mn mx x → x ∈ (nexts (ProductRange.new mn mx) (FUEL mx)).1) := by
  have hmx' : mx < 4294967296 := by omega
  obtain ⟨inv', _⟩ := asc_drain_spec hmn hmx'
  have hmem := asc_mem hmn hmx'
  exact ⟨fun x hx => (hmem x).mp hx, inv'.sorted, fun x hx => (hmem x).mpr hx⟩

/-- C1 witness: the amended theorem applied at the concrete range `(1, 3)`. -/
theorem C1_witness :
    (∀ x ∈ (nexts (ProductRange.new 1 3) (FUEL 3)).1, isProd 1 3 x) ∧
    List.Pairwise (· < ·) (nexts (ProductRange.new 1 3) (FUEL 3)).1 ∧
    (∀ x, isProd 1 3 x → x ∈ (nexts (ProductRange.new 1 3) (FUEL 3)).1) :=
  C1_asc_sorted_products (by omega) (by omega)

/-- C2 counterexample: at `min = max = 2 ^ 32` the ascending drain completes
(the frontier is exhausted) having emitted exactly `[0]`, yet `0` is not an
achievable product — the drains do not enumerate the set of achievable
products, because `(2 ^ 32) * (2 ^ 32)` wrapped to `0`. -/
theorem C2_counterexample :
    (nexts (ProductRange.new 4294967296 4294967296) 2).1 = [0] ∧
    (nexts (ProductRange.new 4294967296 4294967296) 2).2.data = [] ∧
    ¬ isProd 4294967296 4294967296 0 := by
  refine ⟨by decide, by decide, ?_⟩
  rintro ⟨a, b, ha1, ha2, hb1, hb2, h⟩
  have ha : a = 4294967296 := le_antisymm ha2 ha1
  have hb : b = 4294967296 := le_antisymm hb2 hb1
  subst ha hb
  norm_num at h

/-- C2 amended: for `1 ≤ min` and `max ≤ 2 ^ 32 - 1`, the complete descending
output reversed equals the complete ascending output, and both enumerate
exactly the achievable products. -/
theorem C2_desc_reverse_eq_asc {mn mx : Nat} (hmn : 1 ≤ mn)
    (hmx : mx ≤ 4294967295) :
    ((nextsBack (ProductRange.new mn mx) (FUEL mx)).1).reverse =
      (nexts (ProductRange.new mn mx) (FUEL mx)).1 ∧
    (∀ x, x ∈ (nextsBack (ProductRange.new mn mx) (FUEL mx)).1 ↔ isProd mn mx x) ∧
    (∀ x, x ∈ (nexts (ProductRange.new mn mx) (FUEL mx)).1 ↔ isProd mn mx x) := by
  have hmx' : mx < 4294967296 := by omega
  obtain ⟨ainv, _⟩ := asc_drain_spec hmn hmx'
  obtain ⟨dinv, _⟩ := desc_drain_spec hmn hmx'
  have hA := asc_mem hmn hmx'
  have hD := desc_mem hmn hmx'
  refine ⟨?_, hD, hA⟩
  apply sorted_eq_of_mem_iff
  · rw [List.pairwise_reverse]
    exact dinv.sorted
  · exact ainv.sorted
  · intro x
    rw [List.mem_reverse]
    rw [hA x, hD x]

/-- C2 witness: the amended theorem applied at the concrete range `(1, 3)`. -/
theorem C2_witness :
    ((nextsBack (ProductRange.new 1 3) (FUEL 3)).1).reverse =
      (nexts (ProductRange.new 1 3) (FUEL 3)).1 ∧
    (∀ x, x ∈ (nextsBack (ProductRange.new 1 3) (FUEL 3)).1 ↔ isProd 1 3 x) ∧
    (∀ x, x ∈ (nexts (ProductRange.new 1 3) (FUEL 3)).1 ↔ isProd 1 3 x) :=
  C2_desc_reverse_eq_asc (by omega) (by omega)

/-- C6 counterexample: at `(min, max) = (1, 3)` the ascending drain terminates
(the frontier is exhausted) only after emitting the six distinct products
`[1, 2, 3, 4, 6, 9]` — more than `max - min + 1 = 3`. -/
theorem C6_counterexample :
    (nexts (ProductRange.new 1 3) (FUEL 3)).1 = [1, 2, 3, 4, 6, 9] ∧
    (nexts (ProductRange.new 1 3) (FUEL 3)).2.data = [] ∧
    (nexts (ProductRange.new 1 3) (FUEL 3)).1.Nodup ∧
    3 < (nexts (ProductRange.new 1 3) (FUEL 3)).1.length := by
  decide

/-- C6 amended: for `1 ≤ min`, `max ≤ 2 ^ 32 - 1`, both drain directions
terminate (the frontier empties within `FUEL max` calls) after emitting at
most `(max - min + 1) ^ 2` distinct values. -/
theorem C6_termination {mn mx : Nat} (hmn : 1 ≤ mn) (hmx : mx ≤ 4294967295) :
    (nexts (ProductRange.new mn mx) (FUEL mx)).2.data = [] ∧
    (nextsBack (ProductRange.new mn mx) (FUEL mx)).2.data = [] ∧
    (nexts (ProductRange.new mn mx) (FUEL mx)).1.Nodup ∧
    (nextsBack (ProductRange.new mn mx) (FUEL mx)).1.Nodup ∧
    (nexts (ProductRange.new mn mx) (FUEL mx)).1.length ≤
      (mx - mn + 1) * (mx - mn + 1) ∧
    (nextsBack (ProductRange.new mn mx) (FUEL mx)).1.length ≤
      (mx - mn + 1) * (mx - mn + 1) := by
  have hmx' : mx < 4294967296 := by omega
  obtain ⟨ainv, haempty⟩ := asc_drain_spec hmn hmx'
  obtain ⟨dinv, hdempty⟩ := desc_drain_spec hmn hmx'
  have handA : (nexts (ProductRange.new mn mx) (FUEL mx)).1.Nodup :=
    ainv.sorted.imp fun h => Nat.ne_of_lt h
  have handD : (nextsBack (ProductRange.new mn mx) (FUEL mx)).1.Nodup :=
    dinv.sorted.imp fun h => Nat.ne_of_gt h
  have hcount : ∀ L : List Nat, L.Nodup → (∀ x ∈ L, isProd mn mx x) →
      L.length ≤ (mx - mn + 1) * (mx - mn + 1) := by
    intro L hnd hall
    have hsub : L.toFinset ⊆ (Finset.Icc mn mx ×ˢ Finset.Icc mn mx).image
        fun ab => ab.1 * ab.2 := by
      intro x hx
      rw [List.mem_toFinset] at hx
      obtain ⟨a, b, ha1, ha2, hb1, hb2, hxe⟩ := hall x hx
      rw [Finset.mem_image]
      refine ⟨(a, b), ?_, hxe.symm⟩
      rw [Finset.mem_product]
      exact ⟨Finset.mem_Icc.mpr ⟨ha1, ha2⟩, Finset.mem_Icc.mpr ⟨hb1, hb2⟩⟩
    have h1 := Finset.card_le_card hsub
    rw [List.toFinset_card_of_nodup hnd] at h1
    have h2 := Finset.card_image_le
      (s := Finset.Icc mn mx ×ˢ Finset.Icc mn mx) (f := fun ab => ab.1 * ab.2)
    rw [Finset.card_product, Nat.card_Icc] at h2
    have h3 : mx + 1 - mn ≤ mx - mn + 1 := by omega
    calc L.length ≤ _ := h1
    _ ≤ (mx + 1 - mn) * (mx + 1 - mn) := h2
    _ ≤ (mx - mn + 1) * (mx - mn + 1) := Nat.mul_le_mul h3 h3
  have hmemA := asc_mem hmn hmx'
  have hmemD := desc_mem hmn hmx'
  exact ⟨haempty, hdempty, handA, handD,
    hcount _ handA fun x hx => (hmemA x).mp hx,
    hcount _ handD fun x hx => (hmemD x).mp hx⟩

/-- C6 witness: the amended theorem applied at the concrete range `(1, 3)`. -/
theorem C6_witness :
    (nexts (ProductRange.new 1 3) (FUEL 3)).2.data = [] ∧
    (nextsBack (ProductRange.new 1 3) (FUEL 3)).2.data = [] ∧
    (nexts (ProductRange.new 1 3) (FUEL 3)).1.Nodup ∧
    (nextsBack (ProductRange.new 1 3) (FUEL 3)).1.Nodup ∧
    (nexts (ProductRange.new 1 3) (FUEL 3)).1.length ≤ (3 - 1 + 1) * (3 - 1 + 1) ∧
    (nextsBack (ProductRange.new 1 3) (FUEL 3)).1.length ≤ (3 - 1 + 1) * (3 - 1 + 1) :=
  C6_termination (by omega) (by omega)

/-- C7 counterexample: at `min = max = 2 ^ 32` the constructor stores the
wrapped value `0` for the row `2 ^ 32` (the true product is `2 ^ 64`), and the
computation runs to completion without any error, silently propagating the
wrapped value into the result. -/
theorem C7_counterexample :
    (ProductRange.new 4294967296 4294967296).data = [(4294967296, 0)] ∧
    4294967296 * 4294967296 = 18446744073709551616 ∧
    palindrome_products 4294967296 4294967296 = some (⟨0⟩, ⟨0⟩) := by
  refine ⟨by decide, by norm_num, by decide⟩

/-- C7 amended: for `1 ≤ min` and `max ≤ 2 ^ 32 - 1`, no `u64` operation ever
wraps: in any interleaved drain every emitted value is an exact mathematical
product of two factors from the range, and every stored frontier value is the
exact product of its key and an in-range cursor. -/
theorem C7_no_overflow {mn mx : Nat} (hmn : 1 ≤ mn) (hmx : mx ≤ 4294967295)
    (ds : List Bool) :
    (∀ e ∈ (runMix (ProductRange.new mn mx) ds).1, isProd mn mx e.2) ∧
    (∀ kv ∈ (runMix (ProductRange.new mn mx) ds).2.data,
      ∃ m, mn ≤ m ∧ m ≤ mx ∧ kv.2 = kv.1 * m) := by
  have hmx' : mx < 4294967296 := by omega
  obtain ⟨inv', hfacts, _⟩ := runMix_spec hmn hmx' ds _ (mixInv_new hmn hmx')
  exact ⟨fun e he => (hfacts e he).1,
    fun kv hkv => (inv'.entries kv hkv).2.2⟩

/-- C7 witness: the amended theorem applied at the range `(2, 3)` with the
call sequence `next, next_back`. -/
theorem C7_witness :
    (∀ e ∈ (runMix (ProductRange.new 2 3) [true, false]).1, isProd 2 3 e.2) ∧
    (∀ kv ∈ (runMix (ProductRange.new 2 3) [true, false]).2.data,
      ∃ m, 2 ≤ m ∧ m ≤ 3 ∧ kv.2 = kv.1 * m) :=
  C7_no_overflow (by omega) (by omega) [true, false]

/-- C8 counterexample: immediately after construction at `min = max = 2 ^ 32`
the only frontier entry holds the wrapped value `0`, violating
`min * min ≤ v`. -/
theorem C8_counterexample :
    (4294967296, 0) ∈ (ProductRange.new 4294967296 4294967296).data ∧
    ¬ 4294967296 * 4294967296 ≤ 0 := by
  decide

/-- C8 amended: for `1 ≤ min`, `max ≤ 2 ^ 32 - 1`, after construction and any
interleaved sequence of ascending and descending steps, every live frontier
entry `(k, v)` satisfies `min * min ≤ v ≤ max * max` and `v = k * m` for some
`m ∈ [min, max]`. -/
theorem C8_frontier_bounds {mn mx : Nat} (hmn : 1 ≤ mn) (hmx : mx ≤ 4294967295)
    (ds : List Bool) :
    ∀ kv ∈ (runMix (ProductRange.new mn mx) ds).2.data,
      mn * mn ≤ kv.2 ∧ kv.2 ≤ mx * mx ∧
        ∃ m, mn ≤ m ∧ m ≤ mx ∧ kv.2 = kv.1 * m := by
  have hmx' : mx < 4294967296 := by omega
  obtain ⟨inv', _, _⟩ := runMix_spec hmn hmx' ds _ (mixInv_new hmn hmx')
  intro kv hkv
  obtain ⟨hk1, hk2, m, hm1, hm2, hveq⟩ := inv'.entries kv hkv
  refine ⟨?_, ?_, m, hm1, hm2, hveq⟩
  · rw [hveq]
    exact Nat.mul_le_mul hk1 hm1
  · rw [hveq]
    exact Nat.mul_le_mul hk2 hm2

/-- C8 witness: the amended theorem applied at the range `(2, 3)` after the
call sequence `next, next_back`, evaluated at the live entry `(2, 6)`. -/
theorem C8_witness :
    2 * 2 ≤ 6 ∧ 6 ≤ 3 * 3 ∧ ∃ m, 2 ≤ m ∧ m ≤ 3 ∧ 6 = 2 * m :=
  C8_frontier_bounds (by omega) (by omega) [true, false] (2, 6) (by decide)

/-- C9 counterexample: at `(min, max) = (0, 0)` (a legal range) two successive
ascending calls on one instance both emit the value `0`, so a value is emitted
twice. -/
theorem C9_counterexample :
    (runMix (ProductRange.new 0 0) [true, true]).1 = [(true, 0), (true, 0)] ∧
    ¬ ((runMix (ProductRange.new 0 0) [true, true]).1.map Prod.snd).Nodup := by
  decide

/-- C9 amended: for `1 ≤ min`, `max ≤ 2 ^ 32 - 1`, along any interleaved
sequence of `next` and `next_back` calls on one instance no value is emitted
twice; every emission after an ascending one is strictly greater than it, and
every emission after a descending one is strictly smaller than it. -/
theorem C9_watermark_separation {mn mx : Nat} (hmn : 1 ≤ mn)
    (hmx : mx ≤ 4294967295) (ds : List Bool) :
    ((runMix (ProductRange.new mn mx) ds).1.map Prod.snd).Nodup ∧
    List.Pairwise (fun a b : Bool × Nat =>
      (a.1 = true → a.2 < b.2) ∧ (a.1 = false → b.2 < a.2))
      (runMix (ProductRange.new mn mx) ds).1 := by
  have hmx' : mx < 4294967296 := by omega
  obtain ⟨_, _, hpw⟩ := runMix_spec hmn hmx' ds _ (mixInv_new hmn hmx')
  constructor
  · refine List.Pairwise.map _ ?_ hpw
    intro a b h
    unfold sepOrder at h
    split at h <;> omega
  · refine hpw.imp ?_
    intro a b h
    unfold sepOrder at h
    split at h
    · rename_i hc
      exact ⟨fun _ => h, fun hf => by rw [hf] at hc; cases hc⟩
    · rename_i hc
      refine ⟨fun ht => absurd ht ?_, fun _ => h⟩
      simpa using hc

/-- C9 witness: the amended theorem applied at the range `(2, 3)` with the
call sequence `next, next_back, next`. -/
theorem C9_witness :
    ((runMix (ProductRange.new 2 3) [true, false, true]).1.map Prod.snd).Nodup ∧
    List.Pairwise (fun a b : Bool × Nat =>
      (a.1 = true → a.2 < b.2) ∧ (a.1 = false → b.2 < a.2))
      (runMix (ProductRange.new 2 3) [true, false, true]).1 :=
  C9_watermark_separation (by omega) (by omega) [true, false, true]

/-- C3. `palindrome_products` returns the documented values on the three
spec examples. -/
theorem C3_examples :
    palindrome_products 10 99 = some (⟨121⟩, ⟨9009⟩) ∧
    palindrome_products 100 999 = some (⟨10201⟩, ⟨906609⟩) ∧
    palindrome_products 1 1 = some (⟨1⟩, ⟨1⟩) := by
  refine ⟨?_, ?_, by decide⟩
  · refine palindrome_products_eq (by omega) (by omega)
      ⟨11, 11, by omega, by omega, by omega, by omega, by norm_num⟩ (by decide)
      ?_ ⟨91, 99, by omega, by omega, by omega, by omega, by norm_num⟩ (by decide) ?_
    · -- no palindromic product of [10, 99] is smaller than 121
      rintro x ⟨a, b, ha1, ha2, hb1, hb2, hxeq⟩ hpal
      by_contra hlt
      push_neg at hlt
      have ha3 : a ≤ 12 := by
        by_contra hc
        push_neg at hc
        have hm : 13 * 10 ≤ a * b := Nat.mul_le_mul hc hb1
        omega
      have hb3 : b ≤ 12 := by
        by_contra hc
        push_neg at hc
        have hm : 10 * 13 ≤ a * b := Nat.mul_le_mul ha1 hc
        omega
      have hchk : allBelow 3 (fun i => allBelow 3 fun j =>
          !(Palindrome.new ((10 + i) * (10 + j))).isSome ||
            Nat.ble 121 ((10 + i) * (10 + j))) = true := by decide
      have h1 := allBelow_spec hchk (a - 10) (by omega)
      have h2 := allBelow_spec h1 (b - 10) (by omega)
      have hia : 10 + (a - 10) = a := by omega
      have hib : 10 + (b - 10) = b := by omega
      rw [hia, hib, ← hxeq] at h2
      rw [hpal] at h2
      simp only [Bool.not_true, Bool.false_or] at h2
      have := Nat.le_of_ble_eq_true h2
      omega
    · -- no palindromic product of [10, 99] is greater than 9009
      rintro x ⟨a, b, ha1, ha2, hb1, hb2, hxeq⟩ hpal
      by_contra hlt
      push_neg at hlt
      have ha3 : 92 ≤ a := by
        by_contra hc
        push_neg at hc
        have hm : a * b ≤ 91 * 99 := Nat.mul_le_mul (by omega) hb2
        omega
      have hb3 : 92 ≤ b := by
        by_contra hc
        push_neg at hc
        have hm : a * b ≤ 99 * 91 := Nat.mul_le_mul ha2 (by omega)
        omega
      have hchk : allBelow 8 (fun i => allBelow 8 fun j =>
          !(Palindrome.new ((92 + i) * (92 + j))).isSome ||
            Nat.ble ((92 + i) * (92 + j)) 9009) = true := by decide
      have h1 := allBelow_spec hchk (a - 92) (by omega)
      have h2 := allBelow_spec h1 (b - 92) (by omega)
      have hia : 92 + (a - 92) = a := by omega
      have hib : 92 + (b - 92) = b := by omega
      rw [hia, hib, ← hxeq] at h2
      rw [hpal] at h2
      simp only [Bool.not_true, Bool.false_or] at h2
      have := Nat.le_of_ble_eq_true h2
      omega
  · refine palindrome_products_eq (by omega) (by omega)
      ⟨101, 101, by omega, by omega, by omega, by omega, by norm_num⟩ (by decide)
      ?_ ⟨913, 993, by omega, by omega, by omega, by omega, by norm_num⟩ (by decide) ?_
    · -- no palindromic product of [100, 999] is smaller than 10201
      rintro x ⟨a, b, ha1, ha2, hb1, hb2, hxeq⟩ hpal
      by_contra hlt
      push_neg at hlt
      have ha3 : a ≤ 102 := by
        by_contra hc
        push_neg at hc
        have hm : 103 * 100 ≤ a * b := Nat.mul_le_mul hc hb1
        omega
      have hb3 : b ≤ 102 := by
        by_contra hc
        push_neg at hc
        have hm : 100 * 103 ≤ a * b := Nat.mul_le_mul ha1 hc
        omega
      have hchk : allBelow 3 (fun i => allBelow 3 fun j =>
          !(Palindrome.new ((100 + i) * (100 + j))).isSome ||
            Nat.ble 10201 ((100 + i) * (100 + j))) = true := by decide
      have h1 := allBelow_spec hchk (a - 100) (by omega)
      have h2 := allBelow_spec h1 (b - 100) (by omega)
      have hia : 100 + (a - 100) = a := by omega
      have hib : 100 + (b - 100) = b := by omega
      rw [hia, hib, ← hxeq] at h2
      rw [hpal] at h2
      simp only [Bool.not_true, Bool.false_or] at h2
      have := Nat.le_of_ble_eq_true h2
      omega
    · -- no palindromic product of [100, 999] is greater than 906609
      rintro x ⟨a, b, ha1, ha2, hb1, hb2, hxeq⟩ hpal
      by_contra hlt
      push_neg at hlt
      have ha3 : 908 ≤ a := by
        by_contra hc
        push_neg at hc
        have hm : a * b ≤ 907 * 999 := Nat.mul_le_mul (by omega) hb2
        omega
      have hb3 : 908 ≤ b := by
        by_contra hc
        push_neg at hc
        have hm : a * b ≤ 999 * 907 := Nat.mul_le_mul ha2 (by omega)
        omega
      have hchk : allBelow 92 (fun i => allBelow 92 fun j =>
          !(Palindrome.new ((908 + i) * (908 + j))).isSome ||
            Nat.ble ((908 + i) * (908 + j)) 906609) = true := by decide
      have h1 := allBelow_spec hchk (a - 908) (by omega)
      have h2 := allBelow_spec h1 (b - 908) (by omega)
      have hia : 908 + (a - 908) = a := by omega
      have hib : 908 + (b - 908) = b := by omega
      rw [hia, hib, ← hxeq] at h2
      rw [hpal] at h2
      simp only [Bool.not_true, Bool.false_or] at h2
      have := Nat.le_of_ble_eq_true h2
      omega

/-- C10 counterexample: at `min = max = 2 ^ 32`, `palindrome_products` returns
`Some` with both inner values `0`, but `0` is not an achievable product of two
factors from the range (the only product, `2 ^ 64`, wrapped to `0`). -/
theorem C10_counterexample :
    palindrome_products 4294967296 4294967296 = some (⟨0⟩, ⟨0⟩) ∧
    ¬ isProd 4294967296 4294967296 (Palindrome.mk 0).into_inner := by
  refine ⟨by decide, ?_⟩
  rintro ⟨a, b, ha1, ha2, hb1, hb2, h⟩
  have ha : a = 4294967296 := le_antisymm ha2 ha1
  have hb : b = 4294967296 := le_antisymm hb2 hb1
  subst ha hb
  simp only [Palindrome.into_inner] at h
  norm_num at h

/-- C10 amended: for `1 ≤ min` and `max ≤ 2 ^ 32 - 1`, if
`palindrome_products` returns `Some (s, l)` then `s ≤ l` and both inner
values are palindromic achievable products. -/
theorem C10_some_ordered {mn mx : Nat} (hmn : 1 ≤ mn) (hmx : mx ≤ 4294967295)
    {s l : Palindrome} (h : palindrome_products mn mx = some (s, l)) :
    s.into_inner ≤ l.into_inner ∧
    isProd mn mx s.into_inner ∧ isProd mn mx l.into_inner ∧
    (Palindrome.new s.into_inner).isSome = true ∧
    (Palindrome.new l.into_inner).isSome = true := by
  have hmx' : mx < 4294967296 := by omega
  obtain ⟨ainv, _⟩ := asc_drain_spec hmn hmx'
  have hA := asc_mem hmn hmx'
  have hD := desc_mem hmn hmx'
  cases hfA : findMapPal (ProductRange.new mn mx) (FUEL mx) with
  | none =>
    simp [palindrome_products, hfA] at h
  | some pA =>
    cases hfB : findMapPalBack (ProductRange.new mn mx) (FUEL mx) with
    | none =>
      simp [palindrome_products, hfA, hfB] at h
    | some pB =>
      simp only [palindrome_products, hfA, hfB, Option.some.injEq] at h
      obtain ⟨rfl, rfl⟩ := Prod.mk.injEq .. |>.mp h
      rw [findMapPal_eq] at hfA
      rw [findMapPalBack_eq] at hfB
      obtain ⟨hmemA, hpalA⟩ := findSome_pal_mem hfA
      obtain ⟨hmemB, hpalB⟩ := findSome_pal_mem hfB
      have hprodA : isProd mn mx pA.val := (hA pA.val).mp hmemA
      have hprodB : isProd mn mx pB.val := (hD pB.val).mp hmemB
      have hmemBA : pB.val ∈ (nexts (ProductRange.new mn mx) (FUEL mx)).1 :=
        (hA pB.val).mpr hprodB
      have hle : pA.val ≤ pB.val :=
        findSome_pal_min ainv.sorted hfA pB.val hmemBA hpalB
      exact ⟨hle, hprodA, hprodB, hpalA, hpalB⟩

set_option maxRecDepth 10000 in
/-- C10 witness: the amended theorem applied at the range `(10, 99)`, where
`palindrome_products` returns `Some (121, 9009)`. -/
theorem C10_witness :
    (Palindrome.mk 121).into_inner ≤ (Palindrome.mk 9009).into_inner ∧
    isProd 10 99 (Palindrome.mk 121).into_inner ∧
    isProd 10 99 (Palindrome.mk 9009).into_inner ∧
    (Palindrome.new (Palindrome.mk 121).into_inner).isSome = true ∧
    (Palindrome.new (Palindrome.mk 9009).into_inner).isSome = true :=
  C10_some_ordered (by omega) (by omega) (by decide)

end PalinProd
